import Mathlib

/-!
Verification development for the vendoring transaction subsystem of
`pkg/pkg.go`: version-compatibility gating (`EnsureCompatibility`),
the vendoring transaction (`Vendor`), embedded-bundle extraction
(`extractModules`), project-root location (`GetCueModParent`) and
scaffolding (`CueModInit`).

The filesystem is modelled as a flat finite map from component paths
(`List String`) to nodes (regular file with content and an executable
bit, directory, or symlink), together with a trace of the paths passed
to `os.WriteFile` and the held/free state of the advisory lock.
Machine-level aspects that the code does not depend on (inode layout,
permissions beyond the executable bit, intermediate-directory creation
performed implicitly by `os.MkdirAll`) are not modelled.
-/

set_option maxRecDepth 100000

/-- Component paths: an absolute path is the list of its components
(the filesystem root is `[]`).  `path.Join(a, b)` on clean paths is
list append. -/
abbrev PathC := List String

/-- A filesystem node: a regular file (content plus the executable
permission bit), a directory, or a symbolic link. -/
inductive Node where
  | file (content : String) (exec : Bool)
  | dir
  | symlink (target : String)
deriving DecidableEq

/-- Filesystem state threaded through the embedded operations:
a flat association list of nodes, the trace of paths written by
`os.WriteFile`, and whether the `flock` lock is currently held. -/
structure VFS where
  nodes : List (PathC × Node)
  writes : List PathC
  lockHeld : Bool
deriving DecidableEq

/-- Association-list lookup for the node table (first binding wins). -/
def findNode : List (PathC × Node) → PathC → Option Node
  | [], _ => none
  | (k, n) :: rest, p => if k = p then some n else findNode rest p

/-- Remove the binding for one exact path. -/
def eraseKey (p : PathC) (ns : List (PathC × Node)) : List (PathC × Node) :=
  ns.filter (fun kv => decide (kv.1 ≠ p))

/-- Overwrite the node stored at a path. -/
def setNode (ns : List (PathC × Node)) (p : PathC) (n : Node) : List (PathC × Node) :=
  (p, n) :: eraseKey p ns

/-- Go `hashicorp/go-version` versions, restricted to the dotted
numeric-segment core that the code's version strings use. -/
abbrev Version := List Nat

/-- Segment-wise comparison of versions as performed by
`go-version.Compare`: compare numeric segments left to right, a
missing segment counting as zero. -/
def segCmp : List Nat → List Nat → Ordering
  | [], [] => .eq
  | [], bs => if bs.all (fun b => b = 0) then .eq else .lt
  | as, [] => if as.all (fun a => a = 0) then .eq else .gt
  | a :: as, b :: bs =>
      if a < b then .lt else if b < a then .gt else segCmp as bs

/-- The `Version.LessThan` test of `go-version`. -/
def vLt (a b : Version) : Prop := segCmp a b = .lt

/-- The `Version.GreaterThan` test of `go-version`. -/
def vGt (a b : Version) : Prop := segCmp a b = .gt

instance (a b : Version) : Decidable (vLt a b) := by unfold vLt; infer_instance

instance (a b : Version) : Decidable (vGt a b) := by unfold vGt; infer_instance

/-- Characters trimmed by `strings.TrimSpace` (the ASCII whitespace
the version files can contain). -/
def isSpaceChar (c : Char) : Bool := c = ' ' || c = '\n' || c = '\t' || c = '\r'

/-- Trim whitespace from both ends of a character list. -/
def trimChars (l : List Char) : List Char :=
  ((l.dropWhile isSpaceChar).reverse.dropWhile isSpaceChar).reverse

/-- The `strings.TrimSpace` applied by `EnsureCompatibility` before
parsing a persisted version string. -/
def trimString (s : String) : String := String.mk (trimChars s.data)

/-- Split a character list at every `'.'`. -/
def splitOnDot : List Char → List (List Char)
  | [] => [[]]
  | c :: rest =>
      if c = '.' then [] :: splitOnDot rest
      else
        match splitOnDot rest with
        | [] => [[c]]
        | seg :: segs => (c :: seg) :: segs

/-- Accumulate the decimal value of a digit run; fails on the first
non-digit character. -/
def digitsVal (acc : Nat) : List Char → Option Nat
  | [] => some acc
  | c :: rest =>
      if c.isDigit then digitsVal (acc * 10 + (c.toNat - 48)) rest else none

/-- Parse one version segment: a nonempty run of decimal digits. -/
def segToNat (l : List Char) : Option Nat :=
  if l = [] then none else digitsVal 0 l

/-- The `go-version.NewVersion` parser, restricted to the dotted
numeric form (`"0.2.11"`); malformed input yields `none` where the Go
function returns an error. -/
def parseVersion (s : String) : Option Version :=
  (splitOnDot s.data).mapM segToNat

/-- Render a version the way `Version.String()` renders the versions
the code constructs: segments joined by dots. -/
def versionString : Version → String
  | [] => ""
  | [n] => toString n
  | n :: rest => toString n ++ "." ++ versionString rest

/-- Render a component path with the `/` separator used by `path.Join`. -/
def pathString : PathC → String
  | [] => ""
  | [s] => s
  | s :: rest => s ++ "/" ++ pathString rest

/-- The `strings.Contains` substring test, on the underlying
character lists. -/
def stringContains (s sub : String) : Bool := decide (sub.data <:+: s.data)

/-- Substring occurrence as a proposition, for stating the error
message contract. -/
def containsSub (s sub : String) : Prop := sub.data <:+: s.data

instance (s sub : String) : Decidable (containsSub s sub) := by
  unfold containsSub; infer_instance

/-- Modelled from the spec: the development pseudo-version sentinel
`version.DevelopmentVersion` from the tool's `version` package, which
is not part of the sources under verification; only its (in)equality
with the running tool's version string matters. -/
def DevelopmentVersion : String := "devel"

/-- The module identifier `DaggerModule`. -/
def DaggerModule : String := "dagger.io"

/-- The module identifier `UniverseModule`. -/
def UniverseModule : String := "universe.dagger.io"

/-- The `ModuleRequirements` table: minimum required version per
module.  The Go source stores it in a `map`, whose iteration order is
unspecified; the embedding therefore takes the iteration order as an
explicit parameter constrained to be a permutation of this table. -/
def ModuleRequirements : List (String × Version) :=
  [(DaggerModule, [0, 2, 11]), (UniverseModule, [0, 2, 9])]

/-- The relative path `versionFilePath = path.Join("cue.mod", "version.txt")`. -/
def versionFilePathC : PathC := ["cue.mod", "version.txt"]

/-- Result of `os.ReadFile` in the model. -/
inductive ReadRes where
  | ok (data : String)
  | errNotExist
  | errOther
deriving DecidableEq

/-- The `os.ReadFile` of the model: reading a directory or symlink
node is an error that is not `os.ErrNotExist`; an absent path is
`os.ErrNotExist`. -/
def readFileOp (st : VFS) (p : PathC) : ReadRes :=
  match findNode st.nodes p with
  | some (.file c _) => .ok c
  | some .dir => .errOther
  | some (.symlink _) => .errOther
  | none => .errNotExist

/-- The error outcomes of `EnsureCompatibility`, one constructor per
`fmt.Errorf` site. -/
inductive CheckError where
  | readFailed (file : PathC)
  | missingVersionMarker (module : String) (minimum : Version)
  | malformedVersion (file : PathC)
  | incompatibleModule (module : String) (vendored minimum : Version)
  | needsUpgrade (vendored : Version)
  | toolVersionInvalid
deriving DecidableEq

/-- The user-facing message of each failure, mirroring the
`fmt.Errorf` format strings of `EnsureCompatibility` (the `%w`-wrapped
causes of the read/parse failures are abbreviated away). -/
def errorMessage : CheckError → String
  | .readFailed f => "failed to read \"" ++ pathString f ++ "\""
  | .missingVersionMarker m minv =>
      "package \"" ++ m ++ "\" is incompatible with this version of dagger-cue (requires "
        ++ versionString minv
        ++ " or newer). Run `dagger-cue project update` to resolve this"
  | .malformedVersion f => "failed to parse \"" ++ pathString f ++ "\""
  | .incompatibleModule m v minv =>
      "package \"" ++ m ++ "\" (version " ++ versionString v
        ++ ") is incompatible with this version of dagger-cue (requires "
        ++ versionString minv
        ++ " or newer). Run `dagger-cue project update` to resolve this"
  | .needsUpgrade v =>
      "this plan requires dagger-cue " ++ versionString v
        ++ " or newer. Run `dagger-cue version --check` to check for latest version"
  | .toolVersionInvalid => "invalid tool version"

/-- Loop body of `EnsureCompatibility` for one entry of the
requirement table: skip symlinked module directories, then read,
parse and compare the persisted version marker. -/
def checkModule (st : VFS) (cuePkgDir : PathC) (daggerVersion : Version)
    (module : String) (minimumVersion : Version) : Option CheckError :=
  let moduleDir := cuePkgDir ++ [module]
  match findNode st.nodes moduleDir with
  | some (.symlink _) => none
  | _ =>
    let versionFile := moduleDir ++ versionFilePathC
    match readFileOp st versionFile with
    | .errOther => some (.readFailed versionFile)
    | .errNotExist => some (.missingVersionMarker module minimumVersion)
    | .ok data =>
      match parseVersion (trimString data) with
      | none => some (.malformedVersion versionFile)
      | some vendoredVersion =>
        if segCmp vendoredVersion minimumVersion = .lt then
          some (.incompatibleModule module vendoredVersion minimumVersion)
        else if segCmp vendoredVersion daggerVersion = .gt then
          some (.needsUpgrade vendoredVersion)
        else none

/-- The `for module, minimumVersion := range ModuleRequirements` loop:
returns the first failing module's error, in the given iteration
order. -/
def checkLoop (st : VFS) (cuePkgDir : PathC) (daggerVersion : Version) :
    List (String × Version) → Option CheckError
  | [] => none
  | (m, mv) :: rest =>
      match checkModule st cuePkgDir daggerVersion m mv with
      | some e => some e
      | none => checkLoop st cuePkgDir daggerVersion rest

/-- `EnsureCompatibility(ctx, p)`: development builds skip every
check; otherwise the tool's own version string is parsed (`gv.Must`
panics on failure, modelled by `toolVersionInvalid`) and each module
of the requirement table is checked in the map iteration order
`order`.  The `p == ""` branch, which resolves the root through
`GetCueModParent`, is resolved by the caller in this model, so `p` is
the already-resolved project root. -/
def ensureCompatibility (st : VFS) (p : PathC) (toolVersion : String)
    (order : List (String × Version)) : Option CheckError :=
  if toolVersion = DevelopmentVersion then none
  else
    match parseVersion toolVersion with
    | none => some .toolVersionInvalid
    | some daggerVersion =>
        checkLoop st (p ++ ["cue.mod", "pkg"]) daggerVersion order

/-- Result of the `os.Stat` probe in `GetCueModParent`: success, the
`os.ErrNotExist` family, or any other stat error (e.g. permissions). -/
inductive StatR where
  | ok
  | notExist
  | errOther
deriving DecidableEq

/-- Ancestor-walk loop of `GetCueModParent`, on the reversed component
list of the current directory (so that `filepath.Dir`, which drops the
last component, is structural recursion).  `statCueMod d` is the
outcome of `os.Stat(path.Join(d, "cue.mod"))`.  A probe whose error is
not `os.ErrNotExist` (including success) stops the walk with
`found=true`; reaching the filesystem root resets the result to the
process working directory `cwd` with `found=false`. -/
def gcmpAux (statCueMod : PathC → StatR) (cwd : PathC) : List String → PathC × Bool
  | [] => if statCueMod [] ≠ .notExist then ([], true) else (cwd, false)
  | c :: revRest =>
      let parentDir := (c :: revRest).reverse
      if statCueMod parentDir ≠ .notExist then (parentDir, true)
      else
        if revRest = [] then (cwd, false)
        else gcmpAux statCueMod cwd revRest

/-- `GetCueModParent(args...)`: start from `args[0]` when exactly one
argument is given, else from the working directory, and walk upward. -/
def getCueModParent (statCueMod : PathC → StatR) (cwd : PathC)
    (args : List PathC) : PathC × Bool :=
  let parentDir := match args with
    | [a] => a
    | _ => cwd
  gcmpAux statCueMod cwd parentDir.reverse

/-- The `os.Lstat` of the model: exact-key lookup, no symlink
following. -/
def lstatOp (st : VFS) (p : PathC) : Option Node := findNode st.nodes p

/-- `os.MkdirAll` in the flat model: fails when a non-directory node
occupies the path, otherwise creates (or keeps) the directory node.
Implicit creation of intermediate components is not tracked. -/
def mkdirAllOp (st : VFS) (p : PathC) : Option VFS :=
  match findNode st.nodes p with
  | some (.file _ _) => none
  | some (.symlink _) => none
  | some .dir => some st
  | none => some { st with nodes := setNode st.nodes p .dir }

/-- `os.WriteFile` in the model: fails on a directory node, otherwise
stores the file node and records the written path in the trace. -/
def writeFileOp (st : VFS) (p : PathC) (c : String) (exec : Bool) : Option VFS :=
  match findNode st.nodes p with
  | some .dir => none
  | _ => some { st with nodes := setNode st.nodes p (.file c exec),
                        writes := p :: st.writes }

/-- `os.Remove` on the files the code removes (lock file, legacy
`.gitignore`); the code ignores its result, so the model just erases
the binding. -/
def removeOp (st : VFS) (p : PathC) : VFS :=
  { st with nodes := eraseKey p st.nodes }

/-- `os.RemoveAll`: drop the node at the path and every node below
it; like the Go call it succeeds even when nothing exists. -/
def removeAllOp (st : VFS) (p : PathC) : VFS :=
  { st with nodes := st.nodes.filter (fun kv => decide (¬ p <+: kv.1)) }

/-- Does anything exist at or below a path (a directory whose keys are
only deeper entries still "exists" for `os.Rename`)? -/
def existsUnder (ns : List (PathC × Node)) (p : PathC) : Bool :=
  ns.any (fun kv => decide (p <+: kv.1))

/-- `os.Rename src dst` on a subtree: `none` models the
`os.ErrNotExist` failure when the source does not exist; otherwise
every key at or below `src` is re-rooted at `dst`. -/
def renameOp (st : VFS) (src dst : PathC) : Option VFS :=
  if existsUnder st.nodes src then
    let moved := st.nodes.map (fun kv =>
      if src <+: kv.1 then (dst ++ kv.1.drop src.length, kv.2) else kv)
    some { st with nodes := moved }
  else none

/-- `CueModInit(ctx, parentDir, module)`: ensure `cue.mod` exists,
write a first `module.cue` descriptor only when `os.Stat` fails, then
ensure `cue.mod/pkg` exists (`os.ErrExist` tolerated).  Returns the
success flag together with the (possibly partially mutated) state. -/
def cueModInit (st : VFS) (parentDir : PathC) (module : String) : Bool × VFS :=
  let modDir := parentDir ++ ["cue.mod"]
  match mkdirAllOp st modDir with
  | none => (false, st)
  | some st1 =>
    let modFile := modDir ++ ["module.cue"]
    let afterDescriptor :=
      match findNode st1.nodes modFile with
      | some _ => some st1
      | none =>
          writeFileOp st1 modFile ("module: \"" ++ module ++ "\"") false
    match afterDescriptor with
    | none => (false, st1)
    | some st2 =>
      match findNode st2.nodes (modDir ++ ["pkg"]) with
      | some _ => (true, st2)
      | none => (true, { st2 with nodes := setNode st2.nodes (modDir ++ ["pkg"]) .dir })

/-- An entry of the embedded bundle as seen by `fs.WalkDir`: a regular
file with its byte content, or a non-regular entry (directory or
symlink inside the bundle). -/
inductive BEntry where
  | regular (content : String)
  | nonRegular
deriving DecidableEq

/-- Is a bundle entry vendored?  `extractModules` copies exactly the
regular files whose path does not contain `"cue.mod/pkg"`. -/
def bundleIncluded (bp : PathC) (e : BEntry) : Bool :=
  match e with
  | .regular _ => ! stringContains (pathString bp) "cue.mod/pkg"
  | .nonRegular => false

/-- Walk body of `extractModules`: skip non-regular entries and the
bundle's own `cue.mod/pkg` subtree, create the destination's parent
directory, and write the file's bytes with mode `0700` (executable
bit set).  Returns the success flag and the state reached (a failure
aborts the walk like a non-nil `fs.WalkDir` error). -/
def extractLoop (dest : PathC) : VFS → List (PathC × BEntry) → Bool × VFS
  | st, [] => (true, st)
  | st, (bp, e) :: rest =>
      if bundleIncluded bp e then
        let overlayPath := dest ++ bp
        match mkdirAllOp st overlayPath.dropLast with
        | none => (false, st)
        | some st1 =>
          match writeFileOp st1 overlayPath
              (match e with | .regular c => c | .nonRegular => "") true with
          | none => (false, st1)
          | some st2 => extractLoop dest st2 rest
      else extractLoop dest st rest

/-- The terminal error of one `Vendor` run, one constructor per
`return err` site after the lock is taken (plus the pre-lock scaffold
failure). -/
inductive VendorErr where
  | scaffold
  | attrWrite
  | extract
  | markerWrite (module : String)
  | swap (module : String)
deriving DecidableEq

/-- State component of a swap-step outcome (the filesystem reached,
whether the step failed or succeeded). -/
def stepSt : Except (VendorErr × VFS × List PathC) (VFS × List PathC) → VFS
  | .error (_, s, _) => s
  | .ok (s, _) => s

/-- Deferred-cleanup component of a swap-step outcome. -/
def stepDefs : Except (VendorErr × VFS × List PathC) (VFS × List PathC) → List PathC
  | .error (_, _, d) => d
  | .ok (_, d) => d

/-- Tail of one swap iteration after the version-marker write: the
semi-atomic swap of `Vendor`'s loop —
`rm -rf MODULE.old; mv MODULE MODULE.old; mv VENDOR/MODULE MODULE` —
with the backup registered for deferred removal after the first
rename, the first rename tolerating `ErrNotExist`, and a failing
second rename aborting the transaction. -/
def swapFinish (cuePkgDir unpackDir : PathC) (m : String) (st1 : VFS)
    (defs : List PathC) :
    Except (VendorErr × VFS × List PathC) (VFS × List PathC) :=
  let newModuleDir := unpackDir ++ [m]
  let moduleDir := cuePkgDir ++ [m]
  let backupModuleDir := cuePkgDir ++ [m ++ ".old"]
  let st2 := removeAllOp st1 backupModuleDir
  let st3 :=
    match renameOp st2 moduleDir backupModuleDir with
    | some st' => st'
    | none => st2
  let defs1 := backupModuleDir :: defs
  match renameOp st3 newModuleDir moduleDir with
  | none => .error (.swap m, st3, defs1)
  | some st4 => .ok (st4, defs1)

/-- One swap iteration for a non-symlinked module: unless this is a
development build, write the tool version into the version marker of
the staged module, then perform the semi-atomic swap. -/
def swapStep (toolVersion : String) (cuePkgDir unpackDir : PathC)
    (st : VFS) (defs : List PathC) (m : String) :
    Except (VendorErr × VFS × List PathC) (VFS × List PathC) :=
  let afterMarker :=
    if toolVersion ≠ DevelopmentVersion then
      writeFileOp st ((unpackDir ++ [m]) ++ versionFilePathC) toolVersion false
    else some st
  match afterMarker with
  | none => .error (.markerWrite m, st, defs)
  | some st1 => swapFinish cuePkgDir unpackDir m st1 defs

/-- Per-module swap loop of `Vendor`: skip symlinked live modules,
otherwise run one swap iteration, aborting the loop on its failure.
The accumulated `defs` list holds the deferred `os.RemoveAll`
targets, most recently registered first. -/
def swapLoop (toolVersion : String) (cuePkgDir unpackDir : PathC) :
    VFS → List PathC → List (String × Version) →
    (Except VendorErr Unit) × VFS × List PathC
  | st, defs, [] => (.ok (), st, defs)
  | st, defs, (m, _) :: rest =>
    match findNode st.nodes (cuePkgDir ++ [m]) with
    | some (.symlink _) => swapLoop toolVersion cuePkgDir unpackDir st defs rest
    | _ =>
      match swapStep toolVersion cuePkgDir unpackDir st defs m with
      | .error (e, st', defs') => (.error e, st', defs')
      | .ok (st', defs') => swapLoop toolVersion cuePkgDir unpackDir st' defs' rest

/-- Removal of a 0.1-style `.gitignore`: read it, and delete it when
its content starts with the generated-by marker (`strings.HasPrefix`);
read failures are ignored. -/
def gitignoreStep (st1 : VFS) (cuePkgDir : PathC) : VFS :=
  match readFileOp st1 (cuePkgDir ++ [".gitignore"]) with
  | .ok contents =>
      if decide ("# generated by dagger".data <+: contents.data) then
        removeOp st1 (cuePkgDir ++ [".gitignore"])
      else st1
  | _ => st1

/-- Everything `Vendor` does between taking and releasing the lock:
scaffold initialization, legacy `.gitignore` removal, the
`.gitattributes` marker, staging-directory creation, bundle
extraction, and the per-module swap loop.  Returns the result, the
state, and the LIFO list of deferred `os.RemoveAll` targets. -/
def vendorBody (st : VFS) (p : PathC) (toolVersion : String)
    (bundle : List (PathC × BEntry)) (unpackName : String)
    (order : List (String × Version)) :
    (Except VendorErr Unit) × VFS × List PathC :=
  let cuePkgDir := p ++ ["cue.mod", "pkg"]
  match cueModInit st p "" with
  | (false, st1) => (.error .scaffold, st1, [])
  | (true, st1) =>
    let st2 := gitignoreStep st1 cuePkgDir
    match writeFileOp st2 (cuePkgDir ++ [".gitattributes"])
        "# generated by dagger\n** linguist-generated=true\n" false with
    | none => (.error .attrWrite, st2, [])
    | some st3 =>
      let unpackDir := cuePkgDir ++ [unpackName]
      let st4 := { st3 with nodes := setNode st3.nodes unpackDir .dir }
      match extractLoop unpackDir st4 bundle with
      | (false, st5) => (.error .extract, st5, [unpackDir])
      | (true, st5) =>
          let (res, st6, defs) :=
            swapLoop toolVersion cuePkgDir unpackDir st5 [unpackDir] order
          (res, st6, defs)

/-- `Vendor(ctx, p)`: create the module-cache directory, take the
`flock` lock (creating its lock file), run the body, then run the
deferred cleanups — the registered `os.RemoveAll`s in LIFO order,
then `l.Unlock()` and `os.Remove(lockFile)` — on every exit path, as
Go's `defer` does.  `unpackName` stands for the fresh basename chosen
by `os.MkdirTemp(cuePkgDir, "vendor-*")`; the `p == ""` root
resolution through `GetCueModParent` is done by the caller. -/
def Vendor (st0 : VFS) (p : PathC) (toolVersion : String)
    (bundle : List (PathC × BEntry)) (unpackName : String)
    (order : List (String × Version)) : (Except VendorErr Unit) × VFS :=
  let cuePkgDir := p ++ ["cue.mod", "pkg"]
  match mkdirAllOp st0 cuePkgDir with
  | none => (.error .scaffold, st0)
  | some st1 =>
    let lockFile := cuePkgDir ++ ["dagger.lock"]
    let st2 := { st1 with lockHeld := true,
                          nodes := setNode st1.nodes lockFile (.file "" false) }
    let (res, st3, defs) := vendorBody st2 p toolVersion bundle unpackName order
    let st4 := defs.foldl removeAllOp st3
    let st5 := { st4 with lockHeld := false }
    (res, removeOp st5 lockFile)

/-- Discriminator: is a check result the `NeedsUpgrade` failure? -/
def isNeedsUpgrade : Option CheckError → Bool
  | some (.needsUpgrade _) => true
  | _ => false

/-- Discriminator: is a check result the version-parse
(`MalformedVersion`) failure? -/
def isMalformed : Option CheckError → Bool
  | some (.malformedVersion _) => true
  | _ => false

/-- Discriminator: is an `os.Lstat` result a symlink? -/
def isSymlinkNode : Option Node → Bool
  | some (.symlink _) => true
  | _ => false

/-- Fixture: a project whose vendored `dagger.io` carries version
`0.2.0` (below the `0.2.11` minimum) and whose `universe.dagger.io`
carries `0.2.9`. -/
def fsOld : VFS :=
  { nodes :=
      [ (["r", "cue.mod", "pkg", "dagger.io"], .dir),
        (["r", "cue.mod", "pkg", "dagger.io", "cue.mod", "version.txt"],
          .file "0.2.0" false),
        (["r", "cue.mod", "pkg", "universe.dagger.io"], .dir),
        (["r", "cue.mod", "pkg", "universe.dagger.io", "cue.mod", "version.txt"],
          .file "0.2.9" false) ],
    writes := [], lockHeld := false }

/-- Fixture: a project where both module directories exist but neither
contains a version marker. -/
def fsNoMarkers : VFS :=
  { nodes :=
      [ (["r", "cue.mod", "pkg", "dagger.io"], .dir),
        (["r", "cue.mod", "pkg", "universe.dagger.io"], .dir) ],
    writes := [], lockHeld := false }

/-- Fixture: a project whose vendored `dagger.io` carries version
`9.0.0`, newer than any tool version used in the tests, with a
compliant `universe.dagger.io`. -/
def fsNewer : VFS :=
  { nodes :=
      [ (["r", "cue.mod", "pkg", "dagger.io"], .dir),
        (["r", "cue.mod", "pkg", "dagger.io", "cue.mod", "version.txt"],
          .file "9.0.0" false),
        (["r", "cue.mod", "pkg", "universe.dagger.io"], .dir),
        (["r", "cue.mod", "pkg", "universe.dagger.io", "cue.mod", "version.txt"],
          .file "0.2.9" false) ],
    writes := [], lockHeld := false }

/-- Fixture: a stat oracle for the locator that reports a
non-`ErrNotExist` failure (e.g. permission denied) at `["a"]` and
absence everywhere else. -/
def statPermDenied : PathC → StatR :=
  fun p => if p = ["a"] then .errOther else .notExist

/-- The entries of a bundle that `extractModules` vendors: regular
files whose path does not contain `"cue.mod/pkg"`, with their
contents. -/
def includedOf (bundle : List (PathC × BEntry)) : List (PathC × String) :=
  bundle.filterMap (fun pe =>
    match pe with
    | (bp, .regular c) =>
        if stringContains (pathString bp) "cue.mod/pkg" then none else some (bp, c)
    | (_, .nonRegular) => none)

/-- Tree-shaped path sets: pairwise neither is an ancestor of the
other, and none is the empty path.  The regular-file paths of a real
filesystem tree always satisfy this. -/
def PathsDisjoint (l : List PathC) : Prop :=
  List.Pairwise (fun a b => ¬ a <+: b ∧ ¬ b <+: a) l ∧ ∀ p ∈ l, p ≠ []

instance (l : List PathC) : Decidable (PathsDisjoint l) := by
  unfold PathsDisjoint
  infer_instance

/-- Invariant of the extraction walk: below the destination there are
exactly the already-written files `W` (with executable bit), the
parent directories implied by them, and nothing else. -/
def ExtractInv (dest : PathC) (W : List (PathC × String)) (st : VFS) : Prop :=
  findNode st.nodes dest = some .dir ∧
  (∀ x ∈ W, findNode st.nodes (dest ++ x.1) = some (.file x.2 true)) ∧
  (∀ q : PathC, dest <+: q → q ≠ dest →
    (∀ x ∈ W, q ≠ dest ++ x.1) →
    (∀ x ∈ W, q ≠ dest ++ x.1.dropLast) →
    findNode st.nodes q = none) ∧
  (∀ x ∈ W, (∀ y ∈ W, x.1.dropLast ≠ y.1) →
    findNode st.nodes (dest ++ x.1.dropLast) = some .dir)

/-- Fixture: a small embedded bundle holding one file per module, a
non-regular entry, and a `cue.mod/pkg` entry that must be excluded. -/
def bundleSmall : List (PathC × BEntry) :=
  [ (["dagger.io", "dagger", "core.cue"], .regular "core"),
    (["dagger.io"], .nonRegular),
    (["universe.dagger.io", "x.cue"], .regular "x"),
    (["dagger.io", "cue.mod", "pkg", "dep.cue"], .regular "dep") ]

/-- Fixture: an empty destination directory `["d"]`. -/
def destEmpty : VFS := { nodes := [(["d"], .dir)], writes := [], lockHeld := false }

/-- Fixture: a project whose `dagger.io` module directory is a
symlink. -/
def stSym : VFS :=
  { nodes := [(["r", "cue.mod", "pkg", "dagger.io"], .symlink "/custom")],
    writes := [], lockHeld := false }

/-- Fixture: an entirely empty filesystem. -/
def stEmptyFS : VFS := { nodes := [], writes := [], lockHeld := false }

/-- When every probe on the walk reports `ErrNotExist`, the loop falls
through to the root and resets to the working directory. -/
theorem gcmpAux_all_missing (stat : PathC → StatR) (cwd : PathC) :
    ∀ rev startDir : List String, rev <:+ startDir.reverse →
    (∀ pd : PathC, pd <+: startDir → stat pd = .notExist) →
    gcmpAux stat cwd rev = (cwd, false) := by
  intro rev
  induction rev with
  | nil =>
    intro startDir _ hall
    have h0 : stat [] = .notExist := hall [] List.nil_prefix
    simp [gcmpAux, h0]
  | cons c rest ih =>
    intro startDir hsfx hall
    have hpd : (c :: rest).reverse <+: startDir := by
      rw [← List.reverse_reverse startDir]
      exact List.reverse_prefix.mpr hsfx
    have hstat := hall _ hpd
    unfold gcmpAux
    simp only [hstat, ne_eq, not_true_eq_false, if_false]
    by_cases hr : rest = []
    · simp [hr]
    · simp only [hr, if_false]
      exact ih startDir (List.IsSuffix.trans (List.suffix_cons c rest) hsfx) hall

/-- C3 (counterexample): with a start directory different from the
process working directory and no ancestor containing `cue.mod`
(every probe reports `ErrNotExist`), `GetCueModParent` returns the
working directory, not the original start directory. -/
theorem C3_locator_cex :
    getCueModParent (fun _ => .notExist) ["home", "user"] [["tmp", "proj"]]
        = (["home", "user"], false) ∧
    (["home", "user"] : PathC) ≠ ["tmp", "proj"] := by
  constructor
  · rfl
  · simp

/-- C3 (amended): when no ancestor of the start directory (itself
included) contains the `cue.mod` marker, the walk reaches the
filesystem root and `GetCueModParent` returns the process working
directory — not the `startDir` argument — with `found = false`. -/
theorem C3_locate_unfound (stat : PathC → StatR) (cwd startDir : PathC)
    (hall : ∀ pd : PathC, pd <+: startDir → stat pd = .notExist) :
    getCueModParent stat cwd [startDir] = (cwd, false) := by
  unfold getCueModParent
  exact gcmpAux_all_missing stat cwd startDir.reverse startDir
    (List.suffix_refl _) hall

/-- Witness for `C3_locate_unfound` at a concrete oracle and paths. -/
theorem C3_locate_unfound_witness :
    (∀ pd : PathC, pd <+: ["tmp", "proj"] → (fun (_ : PathC) => StatR.notExist) pd = .notExist) ∧
    getCueModParent (fun _ => .notExist) ["home", "user"] [["tmp", "proj"]]
        = (["home", "user"], false) :=
  ⟨fun _ _ => rfl,
   C3_locate_unfound (fun _ => .notExist) ["home", "user"] ["tmp", "proj"]
     (fun _ _ => rfl)⟩

/-- When the walk, scanning upward, first meets a directory whose
probe fails with an error other than `ErrNotExist`, it stops there
with `found = true`. -/
theorem gcmpAux_err_found (stat : PathC → StatR) (cwd d : PathC)
    (hderr : stat d = .errOther) (hdne : d ≠ []) :
    ∀ rev : List String, d.reverse <:+ rev →
    (∀ pd : PathC, pd.reverse <:+ rev → d <+: pd → d ≠ pd → stat pd = .notExist) →
    gcmpAux stat cwd rev = (d, true) := by
  intro rev
  induction rev with
  | nil =>
    intro h1 _
    exfalso
    have hrev : d.reverse = [] := List.suffix_nil.mp h1
    exact hdne (by simpa using congrArg List.reverse hrev)
  | cons c rest ih =>
    intro hsfx hall
    by_cases heq : d.reverse = c :: rest
    · have hd : (c :: rest).reverse = d := by
        rw [← heq, List.reverse_reverse]
      unfold gcmpAux
      simp only [hd, hderr]
      simp
    · have hsfx' : d.reverse <:+ rest := by
        rcases hsfx with ⟨t, ht⟩
        cases t with
        | nil => exact absurd (by simpa using ht) heq
        | cons x xs =>
          refine ⟨xs, ?_⟩
          have : x :: (xs ++ d.reverse) = c :: rest := by simpa using ht
          injection this with _ h2
      have hpref : d <+: (c :: rest).reverse := by
        rw [← List.reverse_reverse d]
        exact List.reverse_prefix.mpr (List.IsSuffix.trans hsfx'
          (List.suffix_cons c rest))
      have hne : d ≠ (c :: rest).reverse := by
        intro h
        exact heq (by rw [h, List.reverse_reverse])
      have hstat : stat (c :: rest).reverse = .notExist := by
        refine hall _ ?_ hpref hne
        rw [List.reverse_reverse]
      unfold gcmpAux
      simp only [hstat, ne_eq, not_true_eq_false, if_false]
      have hrne : rest ≠ [] := by
        intro h
        rw [h] at hsfx'
        exact hdne (by simpa using congrArg List.reverse (List.suffix_nil.mp hsfx'))
      simp only [hrne, if_false]
      refine ih hsfx' ?_
      intro pd hs hp hn
      exact hall pd (List.IsSuffix.trans hs (List.suffix_cons c rest)) hp hn

/-- C10: a probe on the ancestor walk that fails with any error other
than `ErrNotExist` (for example a permission error) is treated as
"marker present": the walk stops and returns that directory with
`found = true`, neither continuing upward nor reporting absence. -/
theorem C10_stat_error_treated_found (stat : PathC → StatR)
    (cwd startDir d : PathC)
    (hpre : d <+: startDir) (hdne : d ≠ []) (hderr : stat d = .errOther)
    (hbetween : ∀ pd : PathC, d <+: pd → pd <+: startDir → d ≠ pd →
      stat pd = .notExist) :
    getCueModParent stat cwd [startDir] = (d, true) := by
  unfold getCueModParent
  refine gcmpAux_err_found stat cwd d hderr hdne startDir.reverse ?_ ?_
  · exact List.reverse_suffix.mpr hpre
  · intro pd hs hp hn
    refine hbetween pd hp ?_ hn
    rw [← List.reverse_reverse pd, ← List.reverse_reverse startDir]
    exact List.reverse_prefix.mpr (by simpa using hs)

/-- Witness for `C10_stat_error_treated_found`: a permission error at
`["a"]` below start directory `["a","b"]` stops the walk at `["a"]`. -/
theorem C10_witness :
    (["a"] : PathC) <+: ["a", "b"] ∧ (["a"] : PathC) ≠ [] ∧
    statPermDenied ["a"] = .errOther ∧
    getCueModParent statPermDenied ["home"] [["a", "b"]] = (["a"], true) := by
  have hb : ∀ pd : PathC, ["a"] <+: pd → pd <+: ["a", "b"] → (["a"] : PathC) ≠ pd →
      statPermDenied pd = .notExist := by
    intro pd h1 h2 h3
    have hpd : pd = ["a", "b"] := by
      cases pd with
      | nil => simp at h1
      | cons x xs =>
        cases xs with
        | nil => simp_all [List.cons_prefix_cons]
        | cons y ys => simp_all [List.cons_prefix_cons]
    rw [hpd]
    rfl
  exact ⟨by decide, by decide, rfl,
    C10_stat_error_treated_found statPermDenied ["home"] ["a", "b"] ["a"]
      (by decide) (by decide) rfl hb⟩

/-- A string contains itself. -/
theorem containsSub_refl (s : String) : containsSub s s :=
  ⟨[], [], by simp⟩

/-- Substring occurrence is preserved by prepending. -/
theorem containsSub_of_right (a b sub : String) (h : containsSub b sub) :
    containsSub (a ++ b) sub := by
  unfold containsSub at *
  rw [String.data_append]
  exact h.trans ⟨a.data, [], by simp⟩

/-- Substring occurrence is preserved by appending. -/
theorem containsSub_of_left (a b sub : String) (h : containsSub a sub) :
    containsSub (a ++ b) sub := by
  unfold containsSub at *
  rw [String.data_append]
  exact h.trans ⟨[], b.data, by simp⟩

/-- On a module whose directory entry is not a symlink,
`EnsureCompatibility`'s loop body is the read/parse/compare chain. -/
theorem checkModule_eval (st : VFS) (cuePkgDir : PathC) (dv : Version)
    (m : String) (mv : Version)
    (hsym : isSymlinkNode (lstatOp st (cuePkgDir ++ [m])) = false) :
    checkModule st cuePkgDir dv m mv =
      match readFileOp st ((cuePkgDir ++ [m]) ++ versionFilePathC) with
      | .errOther => some (.readFailed ((cuePkgDir ++ [m]) ++ versionFilePathC))
      | .errNotExist => some (.missingVersionMarker m mv)
      | .ok data =>
        match parseVersion (trimString data) with
        | none => some (.malformedVersion ((cuePkgDir ++ [m]) ++ versionFilePathC))
        | some v =>
          if segCmp v mv = .lt then some (.incompatibleModule m v mv)
          else if segCmp v dv = .gt then some (.needsUpgrade v)
          else none := by
  unfold lstatOp at hsym
  unfold checkModule
  cases hfn : findNode st.nodes (cuePkgDir ++ [m]) with
  | none => simp only [hfn]
  | some n =>
    cases n with
    | symlink t =>
      rw [hfn] at hsym
      simp [isSymlinkNode] at hsym
    | file c e => simp only [hfn]
    | dir => simp only [hfn]

/-- C1 (counterexample): with tool version `0.1.0` and a persisted
`dagger.io` version `0.2.0` — strictly greater than the tool version,
so the claim demands `NeedsUpgrade` — `check` instead fails with
`IncompatibleModule`, because the minimum-requirement comparison is
made first. -/
theorem C1_gating_cex :
    vGt [0, 2, 0] [0, 1, 0] ∧
    "0.1.0" ≠ DevelopmentVersion ∧
    ensureCompatibility fsOld ["r"] "0.1.0" ModuleRequirements
      = some (.incompatibleModule DaggerModule [0, 2, 0] [0, 2, 11]) ∧
    isNeedsUpgrade (ensureCompatibility fsOld ["r"] "0.1.0" ModuleRequirements)
      = false := by
  refine ⟨by decide, by decide, rfl, rfl⟩

/-- C1 (amended): for a module of the requirement table whose
directory entry is not a symlink and whose persisted version parses,
the loop body of `check` fails with `IncompatibleModule` when the
persisted version is below the minimum, fails with `NeedsUpgrade`
when it is not below the minimum but exceeds the tool version (the
minimum test takes precedence when both apply), and succeeds when it
lies between minimum and tool version inclusive. -/
theorem C1_compat_gating (st : VFS) (cuePkgDir : PathC) (daggerVersion : Version)
    (m : String) (mv : Version) (data : String) (v : Version)
    (hmem : (m, mv) ∈ ModuleRequirements)
    (hsym : isSymlinkNode (lstatOp st (cuePkgDir ++ [m])) = false)
    (hread : readFileOp st ((cuePkgDir ++ [m]) ++ versionFilePathC) = .ok data)
    (hparse : parseVersion (trimString data) = some v) :
    (vLt v mv →
      checkModule st cuePkgDir daggerVersion m mv
        = some (.incompatibleModule m v mv)) ∧
    (¬ vLt v mv → vGt v daggerVersion →
      checkModule st cuePkgDir daggerVersion m mv = some (.needsUpgrade v)) ∧
    (¬ vLt v mv → ¬ vGt v daggerVersion →
      checkModule st cuePkgDir daggerVersion m mv = none) := by
  have hbody := checkModule_eval st cuePkgDir daggerVersion m mv hsym
  rw [hread] at hbody
  simp only [hparse] at hbody
  refine ⟨?_, ?_, ?_⟩
  · intro h
    unfold vLt at h
    rw [hbody]
    simp [h]
  · intro h1 h2
    unfold vLt at h1
    unfold vGt at h2
    rw [hbody]
    simp [h1, h2]
  · intro h1 h2
    unfold vLt at h1
    unfold vGt at h2
    rw [hbody]
    simp [h1, h2]

/-- Witness for `C1_compat_gating`: `dagger.io` vendored at `0.2.0`
with tool version `0.3.0` is below the `0.2.11` minimum. -/
theorem C1_compat_gating_witness :
    ((DaggerModule, ([0, 2, 11] : Version)) ∈ ModuleRequirements ∧
     isSymlinkNode (lstatOp fsOld (["r", "cue.mod", "pkg"] ++ [DaggerModule])) = false ∧
     readFileOp fsOld ((["r", "cue.mod", "pkg"] ++ [DaggerModule]) ++ versionFilePathC)
       = .ok "0.2.0" ∧
     parseVersion (trimString "0.2.0") = some [0, 2, 0]) ∧
    (vLt [0, 2, 0] [0, 2, 11] →
      checkModule fsOld ["r", "cue.mod", "pkg"] [0, 3, 0] DaggerModule [0, 2, 11]
        = some (.incompatibleModule DaggerModule [0, 2, 0] [0, 2, 11])) := by
  refine ⟨⟨by decide, rfl, rfl, rfl⟩, ?_⟩
  exact (C1_compat_gating fsOld ["r", "cue.mod", "pkg"] [0, 3, 0] DaggerModule
    [0, 2, 11] "0.2.0" [0, 2, 0] (by decide) rfl rfl rfl).1

/-- C2 (counterexample): the requirement table is a Go `map`, whose
`range` order is unspecified; with both modules failing (no version
markers), the two possible iteration orders report different modules,
so the reported failure is not determined by the table. -/
theorem C2_map_order_cex :
    (ModuleRequirements.reverse).Perm ModuleRequirements ∧
    ensureCompatibility fsNoMarkers ["r"] "0.3.0" ModuleRequirements
      = some (.missingVersionMarker DaggerModule [0, 2, 11]) ∧
    ensureCompatibility fsNoMarkers ["r"] "0.3.0" ModuleRequirements.reverse
      = some (.missingVersionMarker UniverseModule [0, 2, 9]) ∧
    CheckError.missingVersionMarker DaggerModule [0, 2, 11]
      ≠ .missingVersionMarker UniverseModule [0, 2, 9] := by
  refine ⟨by decide, rfl, rfl, by decide⟩

/-- C2 (amended): `check` examines modules sequentially in its map
iteration order and returns the first failing module's error without
examining aggregation — but that order is Go's unspecified map order,
not a table order, so with two failing modules either may be
reported. -/
theorem C2_first_failure (st : VFS) (cuePkgDir : PathC) (dv : Version)
    (pre post : List (String × Version)) (m : String) (mv : Version)
    (e : CheckError)
    (hpre : ∀ x ∈ pre, checkModule st cuePkgDir dv x.1 x.2 = none)
    (hm : checkModule st cuePkgDir dv m mv = some e) :
    checkLoop st cuePkgDir dv (pre ++ (m, mv) :: post) = some e := by
  induction pre with
  | nil =>
    simp only [List.nil_append, checkLoop]
    rw [hm]
  | cons x xs ih =>
    have hx := hpre x (by simp)
    obtain ⟨a, b⟩ := x
    simp only [List.cons_append, checkLoop]
    rw [hx]
    exact ih (fun y hy => hpre y (by simp [hy]))

/-- Witness for `C2_first_failure`: `universe.dagger.io` passes and
`dagger.io` fails, so the loop reports `dagger.io`. -/
theorem C2_first_failure_witness :
    (∀ x ∈ [(UniverseModule, ([0, 2, 9] : Version))],
      checkModule fsOld ["r", "cue.mod", "pkg"] [0, 3, 0] x.1 x.2 = none) ∧
    checkModule fsOld ["r", "cue.mod", "pkg"] [0, 3, 0] DaggerModule [0, 2, 11]
      = some (.incompatibleModule DaggerModule [0, 2, 0] [0, 2, 11]) ∧
    checkLoop fsOld ["r", "cue.mod", "pkg"] [0, 3, 0]
        ([(UniverseModule, [0, 2, 9])] ++ (DaggerModule, [0, 2, 11]) :: [])
      = some (.incompatibleModule DaggerModule [0, 2, 0] [0, 2, 11]) := by
  refine ⟨by decide, rfl, ?_⟩
  exact C2_first_failure fsOld ["r", "cue.mod", "pkg"] [0, 3, 0]
    [(UniverseModule, [0, 2, 9])] [] DaggerModule [0, 2, 11]
    (.incompatibleModule DaggerModule [0, 2, 0] [0, 2, 11]) (by decide) rfl

/-- C4: a module directory that exists, is not a symlink, and has no
version marker file makes the loop body fail with
`MissingVersionMarker`; the message names the module, its minimum
required version, and the re-vendoring command, and the failure is
never the version-parse error. -/
theorem C4_missing_marker (st : VFS) (cuePkgDir : PathC) (dv : Version)
    (m : String) (mv : Version)
    (hdir : findNode st.nodes (cuePkgDir ++ [m]) = some .dir)
    (hmiss : findNode st.nodes ((cuePkgDir ++ [m]) ++ versionFilePathC) = none) :
    checkModule st cuePkgDir dv m mv = some (.missingVersionMarker m mv) ∧
    containsSub (errorMessage (.missingVersionMarker m mv)) m ∧
    containsSub (errorMessage (.missingVersionMarker m mv)) (versionString mv) ∧
    containsSub (errorMessage (.missingVersionMarker m mv)) "dagger-cue project update" ∧
    isMalformed (checkModule st cuePkgDir dv m mv) = false := by
  have hsym : isSymlinkNode (lstatOp st (cuePkgDir ++ [m])) = false := by
    unfold lstatOp
    rw [hdir]
    rfl
  have hread : readFileOp st ((cuePkgDir ++ [m]) ++ versionFilePathC) = .errNotExist := by
    unfold readFileOp
    rw [hmiss]
  have hres : checkModule st cuePkgDir dv m mv = some (.missingVersionMarker m mv) := by
    rw [checkModule_eval st cuePkgDir dv m mv hsym, hread]
  refine ⟨hres, ?_, ?_, ?_, by rw [hres]; rfl⟩
  · exact containsSub_of_left _ _ _ (containsSub_of_left _ _ _
      (containsSub_of_left _ _ _ (containsSub_of_right _ _ _ (containsSub_refl m))))
  · exact containsSub_of_left _ _ _ (containsSub_of_right _ _ _ (containsSub_refl _))
  · exact containsSub_of_right _ _ _ (by decide)

/-- Witness for `C4_missing_marker`: `dagger.io` exists with no
marker in `fsNoMarkers`. -/
theorem C4_missing_marker_witness :
    findNode fsNoMarkers.nodes (["r", "cue.mod", "pkg"] ++ [DaggerModule]) = some .dir ∧
    findNode fsNoMarkers.nodes ((["r", "cue.mod", "pkg"] ++ [DaggerModule]) ++ versionFilePathC) = none ∧
    checkModule fsNoMarkers ["r", "cue.mod", "pkg"] [0, 3, 0] DaggerModule [0, 2, 11]
      = some (.missingVersionMarker DaggerModule [0, 2, 11]) := by
  refine ⟨rfl, rfl, ?_⟩
  exact (C4_missing_marker fsNoMarkers ["r", "cue.mod", "pkg"] [0, 3, 0]
    DaggerModule [0, 2, 11] rfl rfl).1

/-- C7 (counterexample): the `NeedsUpgrade` failure is produced for
`dagger.io` vendored at `9.0.0`, yet its message mentions neither
module identifier — the claim that it names the offending module
fails. -/
theorem C7_needs_upgrade_cex :
    ensureCompatibility fsNewer ["r"] "0.3.0" ModuleRequirements
      = some (.needsUpgrade [9, 0, 0]) ∧
    ¬ containsSub (errorMessage (.needsUpgrade [9, 0, 0])) DaggerModule ∧
    ¬ containsSub (errorMessage (.needsUpgrade [9, 0, 0])) UniverseModule := by
  refine ⟨rfl, by decide, by decide⟩

/-- C7 (amended): the `MissingVersionMarker` and `IncompatibleModule`
messages contain the module identifier, the version values involved
and the `dagger-cue project update` remediation command; the
`NeedsUpgrade` message contains the vendored version and the
`dagger-cue version --check` remediation command, but no module
identifier. -/
theorem C7_message_contract (m : String) (mv v : Version) :
    (containsSub (errorMessage (.missingVersionMarker m mv)) m ∧
     containsSub (errorMessage (.missingVersionMarker m mv)) (versionString mv) ∧
     containsSub (errorMessage (.missingVersionMarker m mv)) "dagger-cue project update") ∧
    (containsSub (errorMessage (.incompatibleModule m v mv)) m ∧
     containsSub (errorMessage (.incompatibleModule m v mv)) (versionString v) ∧
     containsSub (errorMessage (.incompatibleModule m v mv)) (versionString mv) ∧
     containsSub (errorMessage (.incompatibleModule m v mv)) "dagger-cue project update") ∧
    (containsSub (errorMessage (.needsUpgrade v)) (versionString v) ∧
     containsSub (errorMessage (.needsUpgrade v)) "dagger-cue version --check") := by
  refine ⟨⟨?_, ?_, ?_⟩, ⟨?_, ?_, ?_, ?_⟩, ⟨?_, ?_⟩⟩
  · exact containsSub_of_left _ _ _ (containsSub_of_left _ _ _
      (containsSub_of_left _ _ _ (containsSub_of_right _ _ _ (containsSub_refl m))))
  · exact containsSub_of_left _ _ _ (containsSub_of_right _ _ _ (containsSub_refl _))
  · exact containsSub_of_right _ _ _ (by decide)
  · exact containsSub_of_left _ _ _ (containsSub_of_left _ _ _
      (containsSub_of_left _ _ _ (containsSub_of_left _ _ _
        (containsSub_of_left _ _ _ (containsSub_of_right _ _ _ (containsSub_refl m))))))
  · exact containsSub_of_left _ _ _ (containsSub_of_left _ _ _
      (containsSub_of_left _ _ _ (containsSub_of_right _ _ _ (containsSub_refl _))))
  · exact containsSub_of_left _ _ _ (containsSub_of_right _ _ _ (containsSub_refl _))
  · exact containsSub_of_right _ _ _ (by decide)
  · exact containsSub_of_left _ _ _ (containsSub_of_right _ _ _ (containsSub_refl _))
  · exact containsSub_of_right _ _ _ (by decide)

/-- Lookup after filtering by a key predicate. -/
theorem findNode_filterKey (ns : List (PathC × Node)) (pred : PathC → Bool) (q : PathC) :
    findNode (ns.filter (fun kv => pred kv.1)) q
      = if pred q then findNode ns q else none := by
  induction ns with
  | nil => simp [findNode]
  | cons kv rest ih =>
    obtain ⟨k, n⟩ := kv
    by_cases hp : pred k
    · rw [List.filter_cons_of_pos (by simpa using hp)]
      by_cases hkq : k = q
      · subst hkq
        simp [findNode, hp]
      · simp [findNode, hkq, ih]
    · rw [List.filter_cons_of_neg (by simpa using hp)]
      by_cases hkq : k = q
      · subst hkq
        simp [findNode, hp, ih]
      · simp [findNode, hkq, ih]

/-- Lookup after erasing a key. -/
theorem findNode_eraseKey (ns : List (PathC × Node)) (p q : PathC) :
    findNode (eraseKey p ns) q = if q = p then none else findNode ns q := by
  unfold eraseKey
  have hfk := findNode_filterKey ns (fun k => decide (k ≠ p)) q
  by_cases h : q = p
  · rw [if_pos h]
    subst h
    simpa using hfk
  · rw [if_neg h]
    simpa [h] using hfk

/-- Lookup after setting a key. -/
theorem findNode_setNode (ns : List (PathC × Node)) (p : PathC) (n : Node) (q : PathC) :
    findNode (setNode ns p n) q = if q = p then some n else findNode ns q := by
  unfold setNode
  by_cases h : q = p
  · subst h
    simp [findNode]
  · have h' : p ≠ q := fun hc => h hc.symm
    simp [findNode, h', findNode_eraseKey, h]

/-- Lookup after `os.RemoveAll`. -/
theorem findNode_removeAllOp (st : VFS) (p q : PathC) :
    findNode (removeAllOp st p).nodes q
      = if p <+: q then none else findNode st.nodes q := by
  unfold removeAllOp
  have hfk := findNode_filterKey st.nodes (fun k => decide (¬ p <+: k)) q
  by_cases h : p <+: q
  · rw [if_pos h]
    simpa [h] using hfk
  · rw [if_neg h]
    simpa [h] using hfk

/-- Lookup after `os.Remove`. -/
theorem findNode_removeOp (st : VFS) (p q : PathC) :
    findNode (removeOp st p).nodes q = if q = p then none else findNode st.nodes q := by
  unfold removeOp
  exact findNode_eraseKey st.nodes p q

/-- A successful `os.MkdirAll` changes no key but its argument. -/
theorem mkdirAllOp_frame (st st' : VFS) (p q : PathC)
    (h : mkdirAllOp st p = some st') (hq : q ≠ p) :
    findNode st'.nodes q = findNode st.nodes q := by
  unfold mkdirAllOp at h
  cases hfn : findNode st.nodes p with
  | none =>
    rw [hfn] at h
    cases h
    simp [findNode_setNode, hq]
  | some n =>
    cases n with
    | file c e => rw [hfn] at h; cases h
    | symlink t => rw [hfn] at h; cases h
    | dir => rw [hfn] at h; cases h; rfl

/-- `os.MkdirAll` leaves the write trace and the lock alone. -/
theorem mkdirAllOp_writes (st st' : VFS) (p : PathC)
    (h : mkdirAllOp st p = some st') :
    st'.writes = st.writes ∧ st'.lockHeld = st.lockHeld := by
  unfold mkdirAllOp at h
  cases hfn : findNode st.nodes p with
  | none =>
    rw [hfn] at h
    cases h
    exact ⟨rfl, rfl⟩
  | some n =>
    cases n with
    | file c e => rw [hfn] at h; cases h
    | symlink t => rw [hfn] at h; cases h
    | dir => rw [hfn] at h; cases h; exact ⟨rfl, rfl⟩

/-- A successful `os.WriteFile` changes no key but its argument. -/
theorem writeFileOp_frame (st st' : VFS) (p q : PathC) (c : String) (e : Bool)
    (h : writeFileOp st p c e = some st') (hq : q ≠ p) :
    findNode st'.nodes q = findNode st.nodes q := by
  unfold writeFileOp at h
  cases hfn : findNode st.nodes p with
  | none =>
    rw [hfn] at h
    cases h
    simp [findNode_setNode, hq]
  | some n =>
    cases n with
    | dir => rw [hfn] at h; cases h
    | file c' e' => rw [hfn] at h; cases h; simp [findNode_setNode, hq]
    | symlink t => rw [hfn] at h; cases h; simp [findNode_setNode, hq]

/-- `os.WriteFile` records exactly its path in the write trace. -/
theorem writeFileOp_writes (st st' : VFS) (p : PathC) (c : String) (e : Bool)
    (h : writeFileOp st p c e = some st') :
    st'.writes = p :: st.writes ∧ st'.lockHeld = st.lockHeld := by
  unfold writeFileOp at h
  cases hfn : findNode st.nodes p with
  | none =>
    rw [hfn] at h
    cases h
    exact ⟨rfl, rfl⟩
  | some n =>
    cases n with
    | dir => rw [hfn] at h; cases h
    | file c' e' => rw [hfn] at h; cases h; exact ⟨rfl, rfl⟩
    | symlink t => rw [hfn] at h; cases h; exact ⟨rfl, rfl⟩

/-- Re-rooting a subtree leaves lookups outside both subtrees alone. -/
theorem findNode_renameMap (ns : List (PathC × Node)) (src dst q : PathC)
    (hs : ¬ src <+: q) (hd : ¬ dst <+: q) :
    findNode (ns.map (fun kv =>
      if src <+: kv.1 then (dst ++ kv.1.drop src.length, kv.2) else kv)) q
      = findNode ns q := by
  induction ns with
  | nil => rfl
  | cons kv rest ih =>
    obtain ⟨k, n⟩ := kv
    by_cases hk : src <+: k
    · have hne : dst ++ k.drop src.length ≠ q := by
        intro hqe
        exact hd (hqe ▸ List.prefix_append dst _)
      have hkq : k ≠ q := by
        intro hqe
        exact hs (hqe ▸ hk)
      rw [List.map_cons]
      rw [show (if src <+: (k, n).1
            then (dst ++ List.drop (List.length src) (k, n).1, (k, n).2)
            else (k, n))
          = (dst ++ List.drop (List.length src) k, n) from if_pos hk]
      simp only [findNode, if_neg hne, if_neg hkq]
      exact ih
    · have hkn : (if src <+: (k, n).1
            then (dst ++ List.drop (List.length src) (k, n).1, (k, n).2)
            else (k, n)) = (k, n) := if_neg hk
      rw [List.map_cons, hkn]
      simp only [findNode]
      by_cases hkq : k = q
      · rw [if_pos hkq, if_pos hkq]
      · rw [if_neg hkq, if_neg hkq]
        exact ih

/-- A successful `os.Rename` changes no key outside the source and
destination subtrees. -/
theorem renameOp_frame (st st' : VFS) (src dst q : PathC)
    (h : renameOp st src dst = some st')
    (hs : ¬ src <+: q) (hd : ¬ dst <+: q) :
    findNode st'.nodes q = findNode st.nodes q := by
  unfold renameOp at h
  by_cases hex : existsUnder st.nodes src
  · rw [if_pos hex] at h
    cases h
    exact findNode_renameMap st.nodes src dst q hs hd
  · rw [if_neg hex] at h
    cases h

/-- `os.Rename` leaves the write trace and the lock alone. -/
theorem renameOp_writes (st st' : VFS) (src dst : PathC)
    (h : renameOp st src dst = some st') :
    st'.writes = st.writes ∧ st'.lockHeld = st.lockHeld := by
  unfold renameOp at h
  by_cases hex : existsUnder st.nodes src
  · rw [if_pos hex] at h
    cases h
    exact ⟨rfl, rfl⟩
  · rw [if_neg hex] at h
    cases h

/-- Appending something nonempty changes a path. -/
theorem append_ne_left (dest l : PathC) (h : l ≠ []) : dest ++ l ≠ dest := by
  intro hc
  have hlen := congrArg List.length hc
  simp [List.length_append] at hlen
  exact h hlen

/-- Dropping the last component of a nonempty path shortens it. -/
theorem dropLast_ne_self (l : PathC) (h : l ≠ []) : l.dropLast ≠ l := by
  intro he
  have hlen := congrArg List.length he
  rw [List.length_dropLast] at hlen
  have hp := List.length_pos.mpr h
  omega

/-- `os.MkdirAll` on a free or already-directory path succeeds,
yields a directory there, and touches nothing else. -/
theorem mkdirAllOp_none_or_dir (st : VFS) (target : PathC)
    (h : findNode st.nodes target = none ∨ findNode st.nodes target = some .dir) :
    ∃ st₁, mkdirAllOp st target = some st₁ ∧
      findNode st₁.nodes target = some .dir ∧
      (∀ q, q ≠ target → findNode st₁.nodes q = findNode st.nodes q) ∧
      st₁.writes = st.writes ∧ st₁.lockHeld = st.lockHeld := by
  rcases h with h0 | h0
  · refine ⟨{ st with nodes := setNode st.nodes target .dir }, ?_, ?_, ?_, rfl, rfl⟩
    · unfold mkdirAllOp
      rw [h0]
    · simp [findNode_setNode]
    · intro q hq
      simp [findNode_setNode, hq]
  · refine ⟨st, ?_, h0, fun _ _ => rfl, rfl, rfl⟩
    unfold mkdirAllOp
    rw [h0]

/-- `os.WriteFile` on a free path succeeds with the expected state. -/
theorem writeFileOp_none (st : VFS) (p : PathC) (c : String) (e : Bool)
    (h : findNode st.nodes p = none) :
    writeFileOp st p c e
      = some { st with nodes := setNode st.nodes p (.file c e),
                       writes := p :: st.writes } := by
  unfold writeFileOp
  rw [h]

/-- The extraction walk keeps `ExtractInv`, accumulating the included
entries, and never fails on a tree-shaped bundle over a state
satisfying the invariant. -/
theorem extractLoop_invariant (dest : PathC) :
    ∀ (bundle : List (PathC × BEntry)) (W : List (PathC × String)) (st : VFS),
    ExtractInv dest W st →
    PathsDisjoint (W.map Prod.fst ++ (includedOf bundle).map Prod.fst) →
    (extractLoop dest st bundle).1 = true ∧
    ExtractInv dest (W ++ includedOf bundle) (extractLoop dest st bundle).2 := by
  intro bundle
  induction bundle with
  | nil =>
    intro W st hinv _
    simpa [extractLoop, includedOf] using hinv
  | cons pe rest ih =>
    intro W st hinv hdisj
    obtain ⟨bp, e⟩ := pe
    cases hinc : bundleIncluded bp e with
    | false =>
      have hio : includedOf ((bp, e) :: rest) = includedOf rest := by
        cases e with
        | nonRegular => simp [includedOf]
        | regular c =>
          have hct : stringContains (pathString bp) "cue.mod/pkg" = true := by
            simpa [bundleIncluded] using hinc
          simp [includedOf, hct]
      have hstep : extractLoop dest st ((bp, e) :: rest) = extractLoop dest st rest := by
        simp only [extractLoop, hinc]
        simp
      rw [hio] at hdisj
      rw [hstep, hio]
      exact ih W st hinv hdisj
    | true =>
      obtain ⟨c, rfl⟩ : ∃ c, e = BEntry.regular c := by
        cases e with
        | regular c => exact ⟨c, rfl⟩
        | nonRegular => simp [bundleIncluded] at hinc
      have hcont : stringContains (pathString bp) "cue.mod/pkg" = false := by
        simpa [bundleIncluded] using hinc
      have hio : includedOf ((bp, BEntry.regular c) :: rest)
          = (bp, c) :: includedOf rest := by
        simp [includedOf, hcont]
      rw [hio] at hdisj
      have hbpne : bp ≠ [] := hdisj.2 bp (by simp)
      have hpairs := hdisj.1
      rw [List.map_cons] at hpairs
      rcases List.pairwise_append.mp hpairs with ⟨hpwW, hpwR, hcross⟩
      rcases List.pairwise_cons.mp hpwR with ⟨hbp_rest, hpwRest⟩
      have hWnotbp : ∀ x ∈ W, ¬ x.1 <+: bp ∧ ¬ bp <+: x.1 := fun x hx =>
        hcross x.1 (List.mem_map_of_mem _ hx) bp (List.mem_cons_self _ _)
      -- the parent directory of the overlay target is free or a directory
      have htgt : findNode st.nodes (dest ++ bp.dropLast) = none ∨
          findNode st.nodes (dest ++ bp.dropLast) = some .dir := by
        by_cases hdl : bp.dropLast = []
        · right
          rw [hdl, List.append_nil]
          exact hinv.1
        · by_cases hfile : ∃ x ∈ W, bp.dropLast = x.1
          · exfalso
            obtain ⟨x, hx, hxe⟩ := hfile
            have hpfx : x.1 <+: bp := by
              rw [← hxe]
              exact List.dropLast_prefix bp
            exact (hWnotbp x hx).1 hpfx
          · by_cases hdirn : ∃ x ∈ W, bp.dropLast = x.1.dropLast
            · right
              obtain ⟨x, hx, hxe⟩ := hdirn
              have hguard : ∀ y ∈ W, x.1.dropLast ≠ y.1 := by
                intro y hy hcon
                exact hfile ⟨y, hy, by rw [hxe, hcon]⟩
              have hdir := hinv.2.2.2 x hx hguard
              rw [hxe]
              exact hdir
            · left
              refine hinv.2.2.1 (dest ++ bp.dropLast) (List.prefix_append dest _)
                (append_ne_left dest _ hdl) ?_ ?_
              · intro x hx hcon
                exact hfile ⟨x, hx, List.append_cancel_left hcon⟩
              · intro x hx hcon
                exact hdirn ⟨x, hx, List.append_cancel_left hcon⟩
      obtain ⟨st₁, hmk, htgt₁, hfr₁, hw₁, hl₁⟩ :=
        mkdirAllOp_none_or_dir st (dest ++ bp.dropLast) htgt
      have hovne : dest ++ bp ≠ dest ++ bp.dropLast := by
        intro hcon
        exact dropLast_ne_self bp hbpne (List.append_cancel_left hcon).symm
      have hov0 : findNode st.nodes (dest ++ bp) = none := by
        refine hinv.2.2.1 (dest ++ bp) (List.prefix_append dest _)
          (append_ne_left dest _ hbpne) ?_ ?_
        · intro x hx hcon
          have hxb : bp = x.1 := List.append_cancel_left hcon
          exact (hWnotbp x hx).1 (by rw [hxb])
        · intro x hx hcon
          have hxb : bp = x.1.dropLast := List.append_cancel_left hcon
          refine (hWnotbp x hx).2 ?_
          rw [hxb]
          exact List.dropLast_prefix x.1
      have hov₁ : findNode st₁.nodes (dest ++ bp) = none := by
        rw [hfr₁ _ hovne]
        exact hov0
      have hwf := writeFileOp_none st₁ (dest ++ bp) c true hov₁
      have hta : (dest ++ bp).dropLast = dest ++ bp.dropLast :=
        List.dropLast_append_of_ne_nil dest hbpne
      have hstep : extractLoop dest st ((bp, BEntry.regular c) :: rest)
          = extractLoop dest
              { st₁ with nodes := setNode st₁.nodes (dest ++ bp) (.file c true),
                         writes := (dest ++ bp) :: st₁.writes } rest := by
        simp only [extractLoop, hinc, if_true, hta, hmk, hwf]
      have hinv₂ : ExtractInv dest (W ++ [(bp, c)])
          { st₁ with nodes := setNode st₁.nodes (dest ++ bp) (.file c true),
                     writes := (dest ++ bp) :: st₁.writes } := by
        refine ⟨?_, ?_, ?_, ?_⟩
        · show findNode (setNode st₁.nodes (dest ++ bp) (.file c true)) dest = some .dir
          rw [findNode_setNode, if_neg (Ne.symm (append_ne_left dest bp hbpne))]
          by_cases hdt : dest = dest ++ bp.dropLast
          · rw [hdt]
            exact htgt₁
          · rw [hfr₁ _ hdt]
            exact hinv.1
        · intro x hx
          rcases List.mem_append.mp hx with hxW | hxNew
          · have hne1 : dest ++ x.1 ≠ dest ++ bp := by
              intro hcon
              have hxb : x.1 = bp := List.append_cancel_left hcon
              exact (hWnotbp x hxW).1 (by rw [hxb])
            have hne2 : dest ++ x.1 ≠ dest ++ bp.dropLast := by
              intro hcon
              have hxb : x.1 = bp.dropLast := List.append_cancel_left hcon
              refine (hWnotbp x hxW).1 ?_
              rw [hxb]
              exact List.dropLast_prefix bp
            show findNode (setNode st₁.nodes (dest ++ bp) (.file c true)) (dest ++ x.1)
              = some (.file x.2 true)
            rw [findNode_setNode, if_neg hne1, hfr₁ _ hne2]
            exact hinv.2.1 x hxW
          · have hxe : x = (bp, c) := by simpa using hxNew
            subst hxe
            show findNode (setNode st₁.nodes (dest ++ bp) (.file c true)) (dest ++ bp)
              = some (.file c true)
            rw [findNode_setNode, if_pos rfl]
        · intro q hq hqd hqf hqdn
          have hq_ov : q ≠ dest ++ bp := hqf (bp, c) (by simp)
          have hq_tgt : q ≠ dest ++ bp.dropLast := hqdn (bp, c) (by simp)
          show findNode (setNode st₁.nodes (dest ++ bp) (.file c true)) q = none
          rw [findNode_setNode, if_neg hq_ov, hfr₁ _ hq_tgt]
          exact hinv.2.2.1 q hq hqd
            (fun x hx => hqf x (List.mem_append_left _ hx))
            (fun x hx => hqdn x (List.mem_append_left _ hx))
        · intro x hx hguard
          have hx_ov : dest ++ x.1.dropLast ≠ dest ++ bp := by
            intro hcon
            exact hguard (bp, c) (by simp) (List.append_cancel_left hcon)
          show findNode (setNode st₁.nodes (dest ++ bp) (.file c true))
            (dest ++ x.1.dropLast) = some .dir
          rw [findNode_setNode, if_neg hx_ov]
          by_cases hxt : dest ++ x.1.dropLast = dest ++ bp.dropLast
          · rw [hxt]
            exact htgt₁
          · rw [hfr₁ _ hxt]
            rcases List.mem_append.mp hx with hxW | hxNew
            · refine hinv.2.2.2 x hxW ?_
              intro y hy
              exact hguard y (List.mem_append_left _ hy)
            · have hxe : x = (bp, c) := by simpa using hxNew
              rw [hxe] at hxt
              exact absurd rfl hxt
      have hdisj' : PathsDisjoint
          ((W ++ [(bp, c)]).map Prod.fst ++ (includedOf rest).map Prod.fst) := by
        have hlist : (W ++ [(bp, c)]).map Prod.fst ++ (includedOf rest).map Prod.fst
            = W.map Prod.fst ++ ((bp, c) :: includedOf rest).map Prod.fst := by
          simp
        constructor
        · rw [hlist]
          exact hdisj.1
        · intro p hp
          rw [hlist] at hp
          exact hdisj.2 p hp
      have hrec := ih (W ++ [(bp, c)])
        { st₁ with nodes := setNode st₁.nodes (dest ++ bp) (.file c true),
                   writes := (dest ++ bp) :: st₁.writes } hinv₂ hdisj'
      rw [hstep, hio]
      refine ⟨hrec.1, ?_⟩
      have hWl : W ++ (bp, c) :: includedOf rest = (W ++ [(bp, c)]) ++ includedOf rest := by
        simp
      rw [hWl]
      exact hrec.2

/-- Membership in the included-entry list is exactly: a regular bundle
entry whose path avoids the `cue.mod/pkg` subtree. -/
theorem mem_includedOf (bundle : List (PathC × BEntry)) (bp : PathC) (c : String) :
    (bp, c) ∈ includedOf bundle ↔
      (bp, BEntry.regular c) ∈ bundle ∧
        stringContains (pathString bp) "cue.mod/pkg" = false := by
  unfold includedOf
  rw [List.mem_filterMap]
  constructor
  · rintro ⟨⟨bp', e⟩, hmem, hfa⟩
    cases e with
    | nonRegular => simp at hfa
    | regular c'' =>
      by_cases hct : stringContains (pathString bp') "cue.mod/pkg" = true
      · simp [hct] at hfa
      · rw [Bool.not_eq_true] at hct
        simp [hct] at hfa
        obtain ⟨rfl, rfl⟩ := hfa
        exact ⟨hmem, hct⟩
  · rintro ⟨hmem, hct⟩
    exact ⟨(bp, BEntry.regular c), hmem, by simp [hct]⟩

/-- C8: extracting into an empty destination directory succeeds and
materializes exactly the regular bundle entries outside the
`cue.mod/pkg` subtree, each at its mirrored path with byte-identical
content and the executable bit set; non-regular entries produce no
file of their own. -/
theorem C8_extract_exact (dest : PathC) (bundle : List (PathC × BEntry)) (st : VFS)
    (hdest : findNode st.nodes dest = some .dir)
    (hempty : ∀ q : PathC, dest <+: q → q ≠ dest → findNode st.nodes q = none)
    (hdisj : PathsDisjoint ((includedOf bundle).map Prod.fst)) :
    (extractLoop dest st bundle).1 = true ∧
    ∀ bp c, ((bp, BEntry.regular c) ∈ bundle ∧
        stringContains (pathString bp) "cue.mod/pkg" = false)
      ↔ findNode (extractLoop dest st bundle).2.nodes (dest ++ bp)
          = some (.file c true) := by
  have hinv0 : ExtractInv dest [] st :=
    ⟨hdest, by simp, fun q hq hqd _ _ => hempty q hq hqd, by simp⟩
  have hmain := extractLoop_invariant dest bundle [] st hinv0 (by simpa using hdisj)
  refine ⟨hmain.1, ?_⟩
  have hinv' := hmain.2
  rw [List.nil_append] at hinv'
  intro bp c
  constructor
  · intro hcase
    exact hinv'.2.1 (bp, c) ((mem_includedOf bundle bp c).mpr hcase)
  · intro hfound
    by_cases hin : ∃ c', (bp, c') ∈ includedOf bundle
    · obtain ⟨c', hc'⟩ := hin
      have h1 := hinv'.2.1 (bp, c') hc'
      rw [hfound] at h1
      simp only [Option.some.injEq, Node.file.injEq, and_true] at h1
      subst h1
      exact (mem_includedOf bundle bp c).mp hc'
    · exfalso
      by_cases hbpnil : bp = []
      · subst hbpnil
        rw [List.append_nil] at hfound
        have h1 := hinv'.1
        rw [hfound] at h1
        simp at h1
      · by_cases hdirn : ∃ x ∈ includedOf bundle, dest ++ bp = dest ++ x.1.dropLast
        · obtain ⟨x, hx, hxe⟩ := hdirn
          have hguard : ∀ y ∈ includedOf bundle, x.1.dropLast ≠ y.1 := by
            intro y hy hcon
            apply hin
            refine ⟨y.2, ?_⟩
            have hbq : bp = y.1 := by
              have hb1 : bp = x.1.dropLast := List.append_cancel_left hxe
              rw [hb1, hcon]
            rw [hbq]
            simpa using hy
          have hdir := hinv'.2.2.2 x hx hguard
          rw [← hxe, hfound] at hdir
          simp at hdir
        · have hnone := hinv'.2.2.1 (dest ++ bp) (List.prefix_append dest bp)
            (append_ne_left dest bp hbpnil)
            (fun x hx hcon => by
              apply hin
              refine ⟨x.2, ?_⟩
              have hbq : bp = x.1 := List.append_cancel_left hcon
              rw [hbq]
              simpa using hx)
            (fun x hx hcon => hdirn ⟨x, hx, hcon⟩)
          rw [hfound] at hnone
          exact absurd hnone (by simp)

/-- Witness for `C8_extract_exact` on a concrete four-entry bundle and
an empty destination. -/
theorem C8_extract_witness :
    findNode destEmpty.nodes ["d"] = some .dir ∧
    (∀ q : PathC, ["d"] <+: q → q ≠ ["d"] → findNode destEmpty.nodes q = none) ∧
    PathsDisjoint ((includedOf bundleSmall).map Prod.fst) ∧
    ((extractLoop ["d"] destEmpty bundleSmall).1 = true ∧
     ∀ bp c, ((bp, BEntry.regular c) ∈ bundleSmall ∧
         stringContains (pathString bp) "cue.mod/pkg" = false)
       ↔ findNode (extractLoop ["d"] destEmpty bundleSmall).2.nodes (["d"] ++ bp)
           = some (.file c true)) := by
  have hempty : ∀ q : PathC, ["d"] <+: q → q ≠ ["d"] →
      findNode destEmpty.nodes q = none := by
    intro q h1 h2
    show findNode [(["d"], Node.dir)] q = none
    simp only [findNode]
    rw [if_neg (fun hc => h2 hc.symm)]
  exact ⟨rfl, hempty, by decide,
    C8_extract_exact ["d"] bundleSmall destEmpty rfl hempty (by decide)⟩

/-- A singleton path is a prefix of a cons exactly when the heads
agree. -/
theorem singleton_prefix_cons (x y : String) (t : List String) :
    [x] <+: y :: t ↔ x = y := by
  constructor
  · intro h
    rcases h with ⟨u, hu⟩
    injection hu with h1 _
  · intro h
    subst h
    exact ⟨t, rfl⟩

/-- Two subtrees rooted at distinct child components of the same
directory never contain one another. -/
theorem cons_under_not_prefix (cpd : PathC) (x m0 : String) (X tail : List String)
    (hx : x ≠ m0) :
    ¬ (cpd ++ (x :: X)) <+: (cpd ++ (m0 :: tail)) := by
  intro hc
  rw [List.prefix_append_right_inj] at hc
  rcases hc with ⟨u, hu⟩
  injection hu with h1 _
  exact hx h1

/-- Keys under distinct child components of the same directory
differ. -/
theorem cons_under_ne (cpd : PathC) (x m0 : String) (X tail : List String)
    (hx : x ≠ m0) :
    cpd ++ (x :: X) ≠ cpd ++ (m0 :: tail) := by
  intro hc
  have hcc := List.append_cancel_left hc
  injection hcc with h1 _
  exact hx h1

/-- Deferred `os.RemoveAll`s keep the write trace. -/
theorem foldl_removeAll_writes (ds : List PathC) :
    ∀ st : VFS, (ds.foldl removeAllOp st).writes = st.writes := by
  induction ds with
  | nil => intro st; rfl
  | cons d rest ih =>
    intro st
    rw [List.foldl_cons, ih]
    rfl

/-- Deferred `os.RemoveAll`s keep the lock flag. -/
theorem foldl_removeAll_lock (ds : List PathC) :
    ∀ st : VFS, (ds.foldl removeAllOp st).lockHeld = st.lockHeld := by
  induction ds with
  | nil => intro st; rfl
  | cons d rest ih =>
    intro st
    rw [List.foldl_cons, ih]
    rfl

/-- Deferred `os.RemoveAll`s never create a node. -/
theorem foldl_removeAll_none (ds : List PathC) :
    ∀ (st : VFS) (q : PathC), findNode st.nodes q = none →
    findNode ((ds.foldl removeAllOp st)).nodes q = none := by
  induction ds with
  | nil => intro st q h; exact h
  | cons d rest ih =>
    intro st q h
    rw [List.foldl_cons]
    refine ih _ q ?_
    rw [findNode_removeAllOp]
    by_cases hd : d <+: q
    · rw [if_pos hd]
    · rw [if_neg hd]
      exact h

/-- After the deferred `os.RemoveAll` of a directory runs, nothing
remains at or below it. -/
theorem foldl_removeAll_mem (ds : List PathC) :
    ∀ (st : VFS) (q d : PathC), d ∈ ds → d <+: q →
    findNode ((ds.foldl removeAllOp st)).nodes q = none := by
  induction ds with
  | nil => intro st q d h; cases h
  | cons d₀ rest ih =>
    intro st q d hmem hpfx
    rw [List.foldl_cons]
    rcases List.mem_cons.mp hmem with h0 | h0
    · subst h0
      refine foldl_removeAll_none rest _ q ?_
      rw [findNode_removeAllOp, if_pos hpfx]
    · exact ih _ q d h0 hpfx

/-- Deferred `os.RemoveAll`s of directories away from `q` leave `q`
alone. -/
theorem foldl_removeAll_frame (ds : List PathC) :
    ∀ (st : VFS) (q : PathC), (∀ d ∈ ds, ¬ d <+: q) →
    findNode ((ds.foldl removeAllOp st)).nodes q = findNode st.nodes q := by
  induction ds with
  | nil => intro st q _; rfl
  | cons d rest ih =>
    intro st q h
    rw [List.foldl_cons, ih _ q (fun d' hd' => h d' (List.mem_cons_of_mem _ hd')),
      findNode_removeAllOp, if_neg (h d (List.mem_cons_self _ _))]

/-- `CueModInit` touches only the `cue.mod` directory, the
`module.cue` descriptor, and the `cue.mod/pkg` directory. -/
theorem cueModInit_frame (st : VFS) (p : PathC) (mod : String) (q : PathC)
    (h1 : q ≠ p ++ ["cue.mod"])
    (h2 : q ≠ (p ++ ["cue.mod"]) ++ ["module.cue"])
    (h3 : q ≠ (p ++ ["cue.mod"]) ++ ["pkg"]) :
    findNode (cueModInit st p mod).2.nodes q = findNode st.nodes q := by
  unfold cueModInit
  cases hmk : mkdirAllOp st (p ++ ["cue.mod"]) with
  | none => simp only [hmk]
  | some st1 =>
    simp only [hmk]
    have hf1 := mkdirAllOp_frame st st1 _ q hmk h1
    cases hfd : findNode st1.nodes ((p ++ ["cue.mod"]) ++ ["module.cue"]) with
    | some n =>
      simp only [hfd]
      cases hfp : findNode st1.nodes ((p ++ ["cue.mod"]) ++ ["pkg"]) with
      | some n2 =>
        simp only [hfp]
        exact hf1
      | none =>
        simp only [hfp]
        show findNode (setNode st1.nodes ((p ++ ["cue.mod"]) ++ ["pkg"]) .dir) q
          = findNode st.nodes q
        rw [findNode_setNode, if_neg h3]
        exact hf1
    | none =>
      simp only [hfd]
      cases hwf : writeFileOp st1 ((p ++ ["cue.mod"]) ++ ["module.cue"])
          ("module: \"" ++ mod ++ "\"") false with
      | none =>
        simp only [hwf]
        exact hf1
      | some st2 =>
        simp only [hwf]
        have hf2 : findNode st2.nodes q = findNode st.nodes q := by
          rw [writeFileOp_frame st1 st2 _ q _ _ hwf h2]
          exact hf1
        cases hfp : findNode st2.nodes ((p ++ ["cue.mod"]) ++ ["pkg"]) with
        | some n =>
          simp only [hfp]
          exact hf2
        | none =>
          simp only [hfp]
          show findNode (setNode st2.nodes ((p ++ ["cue.mod"]) ++ ["pkg"]) .dir) q
            = findNode st.nodes q
          rw [findNode_setNode, if_neg h3]
          exact hf2

/-- Every write `CueModInit` performs is the `module.cue`
descriptor. -/
theorem cueModInit_writes (st : VFS) (p : PathC) (mod : String) :
    ∀ w ∈ (cueModInit st p mod).2.writes,
      w ∈ st.writes ∨ w = (p ++ ["cue.mod"]) ++ ["module.cue"] := by
  unfold cueModInit
  cases hmk : mkdirAllOp st (p ++ ["cue.mod"]) with
  | none =>
    simp only [hmk]
    intro w hw
    exact Or.inl hw
  | some st1 =>
    simp only [hmk]
    have hw1 : st1.writes = st.writes := (mkdirAllOp_writes st st1 _ hmk).1
    cases hfd : findNode st1.nodes ((p ++ ["cue.mod"]) ++ ["module.cue"]) with
    | some n =>
      simp only [hfd]
      cases hfp : findNode st1.nodes ((p ++ ["cue.mod"]) ++ ["pkg"]) with
      | some n2 =>
        simp only [hfp]
        intro w hw
        have hw' : w ∈ st1.writes := hw
        rw [hw1] at hw'
        exact Or.inl hw'
      | none =>
        simp only [hfp]
        intro w hw
        have hw' : w ∈ st1.writes := hw
        rw [hw1] at hw'
        exact Or.inl hw'
    | none =>
      simp only [hfd]
      cases hwf : writeFileOp st1 ((p ++ ["cue.mod"]) ++ ["module.cue"])
          ("module: \"" ++ mod ++ "\"") false with
      | none =>
        simp only [hwf]
        intro w hw
        rw [hw1] at hw
        exact Or.inl hw
      | some st2 =>
        simp only [hwf]
        have hw2 : st2.writes = ((p ++ ["cue.mod"]) ++ ["module.cue"]) :: st1.writes :=
          (writeFileOp_writes st1 st2 _ _ _ hwf).1
        have hall : ∀ w ∈ st2.writes,
            w ∈ st.writes ∨ w = (p ++ ["cue.mod"]) ++ ["module.cue"] := by
          intro w hw
          rw [hw2, hw1] at hw
          rcases List.mem_cons.mp hw with h | h
          · exact Or.inr h
          · exact Or.inl h
        cases hfp : findNode st2.nodes ((p ++ ["cue.mod"]) ++ ["pkg"]) with
        | some n =>
          simp only [hfp]
          exact hall
        | none =>
          simp only [hfp]
          exact hall

/-- A skipped bundle entry contributes nothing to the included set. -/
theorem includedOf_cons_skip (bp : PathC) (e : BEntry) (rest : List (PathC × BEntry))
    (h : bundleIncluded bp e = false) :
    includedOf ((bp, e) :: rest) = includedOf rest := by
  cases e with
  | nonRegular => simp [includedOf]
  | regular c =>
    have hct : stringContains (pathString bp) "cue.mod/pkg" = true := by
      simpa [bundleIncluded] using h
    simp [includedOf, hct]

/-- An included bundle entry heads the included set. -/
theorem includedOf_cons_incl (bp : PathC) (c : String) (rest : List (PathC × BEntry))
    (h : stringContains (pathString bp) "cue.mod/pkg" = false) :
    includedOf ((bp, BEntry.regular c) :: rest) = (bp, c) :: includedOf rest := by
  simp [includedOf, h]

/-- Inversion of the extraction guard. -/
theorem bundleIncluded_true (bp : PathC) (e : BEntry)
    (h : bundleIncluded bp e = true) :
    ∃ c, e = BEntry.regular c ∧
      stringContains (pathString bp) "cue.mod/pkg" = false := by
  cases e with
  | nonRegular => simp [bundleIncluded] at h
  | regular c =>
    refine ⟨c, rfl, ?_⟩
    simpa [bundleIncluded] using h

/-- Extraction only mutates paths at or below the destination. -/
theorem extractLoop_frame (dest : PathC) :
    ∀ (bundle : List (PathC × BEntry)) (st : VFS) (q : PathC),
    (∀ x ∈ includedOf bundle, x.1 ≠ []) →
    ¬ dest <+: q →
    findNode (extractLoop dest st bundle).2.nodes q = findNode st.nodes q := by
  intro bundle
  induction bundle with
  | nil => intro st q _ _; rfl
  | cons pe rest ih =>
    intro st q hne hq
    obtain ⟨bp, e⟩ := pe
    cases hinc : bundleIncluded bp e with
    | false =>
      have hrw : extractLoop dest st ((bp, e) :: rest) = extractLoop dest st rest := by
        simp only [extractLoop, hinc]
        simp
      rw [hrw]
      refine ih st q ?_ hq
      intro x hx
      exact hne x (by rw [includedOf_cons_skip bp e rest hinc]; exact hx)
    | true =>
      obtain ⟨c, rfl, hcont⟩ := bundleIncluded_true bp e hinc
      have hio := includedOf_cons_incl bp c rest hcont
      have hbne : bp ≠ [] := hne (bp, c) (by rw [hio]; exact List.mem_cons_self _ _)
      have hta : (dest ++ bp).dropLast = dest ++ bp.dropLast :=
        List.dropLast_append_of_ne_nil dest hbne
      have hqt : q ≠ (dest ++ bp).dropLast := by
        intro hqe
        rw [hta] at hqe
        exact hq (hqe ▸ List.prefix_append dest bp.dropLast)
      have hqo : q ≠ dest ++ bp := by
        intro hqe
        exact hq (hqe ▸ List.prefix_append dest bp)
      have hrest : ∀ x ∈ includedOf rest, x.1 ≠ [] := by
        intro x hx
        exact hne x (by rw [hio]; exact List.mem_cons_of_mem _ hx)
      cases hmk : mkdirAllOp st ((dest ++ bp).dropLast) with
      | none => simp only [extractLoop, hinc, if_true, hmk]
      | some st1 =>
        have hf1 := mkdirAllOp_frame st st1 _ q hmk hqt
        cases hwf : writeFileOp st1 (dest ++ bp) c true with
        | none =>
          simp only [extractLoop, hinc, if_true, hmk, hwf]
          exact hf1
        | some st2 =>
          have hf2 : findNode st2.nodes q = findNode st.nodes q := by
            rw [writeFileOp_frame st1 st2 _ q _ _ hwf hqo]
            exact hf1
          simp only [extractLoop, hinc, if_true, hmk, hwf]
          rw [ih st2 q hrest hq]
          exact hf2

/-- Every write of the extraction walk is an included entry's overlay
path. -/
theorem extractLoop_writes (dest : PathC) :
    ∀ (bundle : List (PathC × BEntry)) (st : VFS),
    ∀ w ∈ (extractLoop dest st bundle).2.writes,
      w ∈ st.writes ∨ ∃ bp ∈ (includedOf bundle).map Prod.fst, w = dest ++ bp := by
  intro bundle
  induction bundle with
  | nil => intro st w hw; exact Or.inl hw
  | cons pe rest ih =>
    intro st w hw
    obtain ⟨bp, e⟩ := pe
    cases hinc : bundleIncluded bp e with
    | false =>
      have hrw : extractLoop dest st ((bp, e) :: rest) = extractLoop dest st rest := by
        simp only [extractLoop, hinc]
        simp
      rw [hrw] at hw
      rcases ih st w hw with h | ⟨bp', hbp', hwe⟩
      · exact Or.inl h
      · refine Or.inr ⟨bp', ?_, hwe⟩
        rw [includedOf_cons_skip bp e rest hinc]
        exact hbp'
    | true =>
      obtain ⟨c, rfl, hcont⟩ := bundleIncluded_true bp e hinc
      have hio := includedOf_cons_incl bp c rest hcont
      cases hmk : mkdirAllOp st ((dest ++ bp).dropLast) with
      | none =>
        simp only [extractLoop, hinc, if_true, hmk] at hw
        exact Or.inl hw
      | some st1 =>
        have hw1 : st1.writes = st.writes := (mkdirAllOp_writes st st1 _ hmk).1
        cases hwf : writeFileOp st1 (dest ++ bp) c true with
        | none =>
          simp only [extractLoop, hinc, if_true, hmk, hwf] at hw
          have hw0 : w ∈ st1.writes := hw
          rw [hw1] at hw0
          exact Or.inl hw0
        | some st2 =>
          have hw2 : st2.writes = (dest ++ bp) :: st1.writes :=
            (writeFileOp_writes st1 st2 _ _ _ hwf).1
          simp only [extractLoop, hinc, if_true, hmk, hwf] at hw
          rcases ih st2 w hw with h | ⟨bp', hbp', hwe⟩
          · rw [hw2] at h
            rcases List.mem_cons.mp h with h0 | h0
            · refine Or.inr ⟨bp, ?_, h0⟩
              rw [hio]
              simp
            · rw [hw1] at h0
              exact Or.inl h0
          · refine Or.inr ⟨bp', ?_, hwe⟩
            rw [hio]
            simp only [List.map_cons]
            exact List.mem_cons_of_mem _ hbp'

/-- Membership in the requirement table pins the module name. -/
theorem mem_ModuleRequirements (m : String) (mv : Version)
    (h : (m, mv) ∈ ModuleRequirements) :
    m = DaggerModule ∨ m = UniverseModule := by
  simp [ModuleRequirements, Prod.ext_iff] at h
  rcases h with ⟨h1, _⟩ | ⟨h1, _⟩
  · exact Or.inl h1
  · exact Or.inr h1

/-- A backup directory name never equals a module name of the table. -/
theorem table_old_ne (a b : String)
    (ha : a = DaggerModule ∨ a = UniverseModule)
    (hb : b = DaggerModule ∨ b = UniverseModule) :
    a ++ ".old" ≠ b := by
  rcases ha with h | h <;> rcases hb with h2 | h2 <;> subst h <;> subst h2 <;> decide

/-- The staging directory basename, which starts with `vendor-`,
differs from any string that does not. -/
theorem vendor_name_ne (un s : String) (hun : "vendor-".data <+: un.data)
    (hs : ("vendor-".data <+: s.data) → False) : un ≠ s :=
  fun hc => hs (hc ▸ hun)

/-- The staging directory basename differs from both module names. -/
theorem vendor_name_ne_table (un m0 : String)
    (hun : "vendor-".data <+: un.data)
    (hm0 : m0 = DaggerModule ∨ m0 = UniverseModule) :
    un ≠ m0 := by
  rcases hm0 with h | h <;> subst h <;> exact vendor_name_ne un _ hun (by decide)

/-- The swap tail touches only the module, backup, and staged-module
subtrees. -/
theorem swapFinish_frame (cpd ud : PathC) (m : String) (st1 : VFS)
    (defs : List PathC) (q : PathC)
    (h1 : ¬ (cpd ++ [m]) <+: q)
    (h2 : ¬ (cpd ++ [m ++ ".old"]) <+: q)
    (h3 : ¬ (ud ++ [m]) <+: q) :
    findNode (stepSt (swapFinish cpd ud m st1 defs)).nodes q
      = findNode st1.nodes q := by
  unfold swapFinish
  have hst2 : findNode (removeAllOp st1 (cpd ++ [m ++ ".old"])).nodes q
      = findNode st1.nodes q := by
    rw [findNode_removeAllOp, if_neg h2]
  cases hr1 : renameOp (removeAllOp st1 (cpd ++ [m ++ ".old"])) (cpd ++ [m])
      (cpd ++ [m ++ ".old"]) with
  | none =>
    simp only [hr1]
    cases hr2 : renameOp (removeAllOp st1 (cpd ++ [m ++ ".old"])) (ud ++ [m])
        (cpd ++ [m]) with
    | none =>
      simp only [hr2, stepSt]
      exact hst2
    | some st4 =>
      simp only [hr2, stepSt]
      rw [renameOp_frame _ st4 _ _ q hr2 h3 h1]
      exact hst2
  | some st3 =>
    simp only [hr1]
    have hst3 : findNode st3.nodes q = findNode st1.nodes q := by
      rw [renameOp_frame _ st3 _ _ q hr1 h1 h2]
      exact hst2
    cases hr2 : renameOp st3 (ud ++ [m]) (cpd ++ [m]) with
    | none =>
      simp only [hr2, stepSt]
      exact hst3
    | some st4 =>
      simp only [hr2, stepSt]
      rw [renameOp_frame _ st4 _ _ q hr2 h3 h1]
      exact hst3

/-- The swap tail performs no `os.WriteFile`. -/
theorem swapFinish_writes (cpd ud : PathC) (m : String) (st1 : VFS)
    (defs : List PathC) :
    (stepSt (swapFinish cpd ud m st1 defs)).writes = st1.writes := by
  unfold swapFinish
  cases hr1 : renameOp (removeAllOp st1 (cpd ++ [m ++ ".old"])) (cpd ++ [m])
      (cpd ++ [m ++ ".old"]) with
  | none =>
    simp only [hr1]
    cases hr2 : renameOp (removeAllOp st1 (cpd ++ [m ++ ".old"])) (ud ++ [m])
        (cpd ++ [m]) with
    | none => simp only [hr2, stepSt]; rfl
    | some st4 =>
      simp only [hr2, stepSt]
      exact (renameOp_writes _ st4 _ _ hr2).1
  | some st3 =>
    simp only [hr1]
    have hw3 : st3.writes = st1.writes := (renameOp_writes _ st3 _ _ hr1).1
    cases hr2 : renameOp st3 (ud ++ [m]) (cpd ++ [m]) with
    | none => simp only [hr2, stepSt]; exact hw3
    | some st4 =>
      simp only [hr2, stepSt]
      rw [(renameOp_writes _ st4 _ _ hr2).1]
      exact hw3

/-- The swap tail registers exactly the backup directory for deferred
removal. -/
theorem swapFinish_defs (cpd ud : PathC) (m : String) (st1 : VFS)
    (defs : List PathC) :
    stepDefs (swapFinish cpd ud m st1 defs) = (cpd ++ [m ++ ".old"]) :: defs := by
  unfold swapFinish
  cases hr1 : renameOp (removeAllOp st1 (cpd ++ [m ++ ".old"])) (cpd ++ [m])
      (cpd ++ [m ++ ".old"]) with
  | none =>
    simp only [hr1]
    cases hr2 : renameOp (removeAllOp st1 (cpd ++ [m ++ ".old"])) (ud ++ [m])
        (cpd ++ [m]) with
    | none => simp only [hr2, stepDefs]
    | some st4 => simp only [hr2, stepDefs]
  | some st3 =>
    simp only [hr1]
    cases hr2 : renameOp st3 (ud ++ [m]) (cpd ++ [m]) with
    | none => simp only [hr2, stepDefs]
    | some st4 => simp only [hr2, stepDefs]

/-- One swap iteration touches only the module, backup, and
staged-module subtrees. -/
theorem swapStep_frame (tv : String) (cpd ud : PathC) (st : VFS)
    (defs : List PathC) (m : String) (q : PathC)
    (h1 : ¬ (cpd ++ [m]) <+: q)
    (h2 : ¬ (cpd ++ [m ++ ".old"]) <+: q)
    (h3 : ¬ (ud ++ [m]) <+: q) :
    findNode (stepSt (swapStep tv cpd ud st defs m)).nodes q
      = findNode st.nodes q := by
  unfold swapStep
  have hqm : q ≠ (ud ++ [m]) ++ versionFilePathC := by
    intro he
    exact h3 (he ▸ List.prefix_append (ud ++ [m]) versionFilePathC)
  by_cases hdev : tv = DevelopmentVersion
  · simp only [hdev, ne_eq, eq_self_iff_true, not_true, if_false]
    exact swapFinish_frame cpd ud m st defs q h1 h2 h3
  · simp only [ne_eq, eq_true hdev, if_true]
    cases hwf : writeFileOp st ((ud ++ [m]) ++ versionFilePathC) tv false with
    | none => simp only [hwf, stepSt]
    | some st1 =>
      simp only [hwf]
      rw [swapFinish_frame cpd ud m st1 defs q h1 h2 h3]
      exact writeFileOp_frame st st1 _ q _ _ hwf hqm

/-- In a development build, one swap iteration performs no
`os.WriteFile` at all. -/
theorem swapStep_writes_dev (cpd ud : PathC) (st : VFS) (defs : List PathC)
    (m : String) :
    (stepSt (swapStep DevelopmentVersion cpd ud st defs m)).writes = st.writes := by
  unfold swapStep
  simp only [ne_eq, eq_self_iff_true, not_true, if_false]
  exact swapFinish_writes cpd ud m st defs

/-- One swap iteration extends the deferred-removal list at most by
the backup directory. -/
theorem swapStep_defs (tv : String) (cpd ud : PathC) (st : VFS)
    (defs : List PathC) (m : String) :
    stepDefs (swapStep tv cpd ud st defs m) = (cpd ++ [m ++ ".old"]) :: defs ∨
    stepDefs (swapStep tv cpd ud st defs m) = defs := by
  unfold swapStep
  by_cases hdev : tv = DevelopmentVersion
  · simp only [hdev, ne_eq, eq_self_iff_true, not_true, if_false]
    exact Or.inl (swapFinish_defs cpd ud m st defs)
  · simp only [ne_eq, eq_true hdev, if_true]
    cases hwf : writeFileOp st ((ud ++ [m]) ++ versionFilePathC) tv false with
    | none => simp only [hwf, stepDefs]; exact Or.inr trivial
    | some st1 =>
      simp only [hwf]
      exact Or.inl (swapFinish_defs cpd ud m st1 defs)


/-- In a development build the swap loop never writes. -/
theorem swapLoop_writes_dev (cpd ud : PathC) :
    ∀ (order : List (String × Version)) (st : VFS) (defs : List PathC),
    (swapLoop DevelopmentVersion cpd ud st defs order).2.1.writes = st.writes := by
  intro order
  induction order with
  | nil => intro st defs; rfl
  | cons x rest ih =>
    intro st defs
    obtain ⟨m, mv⟩ := x
    cases hfn : findNode st.nodes (cpd ++ [m]) with
    | none =>
      simp only [swapLoop, hfn]
      cases hstep : swapStep DevelopmentVersion cpd ud st defs m with
      | error edata =>
        obtain ⟨e, st', defs'⟩ := edata
        simp only [hstep]
        have hws := swapStep_writes_dev cpd ud st defs m
        rw [hstep] at hws
        exact hws
      | ok okdata =>
        obtain ⟨st', defs'⟩ := okdata
        simp only [hstep]
        have hws := swapStep_writes_dev cpd ud st defs m
        rw [hstep] at hws
        rw [ih st' defs']
        exact hws
    | some n =>
      cases n with
      | symlink t =>
        simp only [swapLoop, hfn]
        exact ih st defs
      | file c e2 =>
        simp only [swapLoop, hfn]
        cases hstep : swapStep DevelopmentVersion cpd ud st defs m with
        | error edata =>
          obtain ⟨e, st', defs'⟩ := edata
          simp only [hstep]
          have hws := swapStep_writes_dev cpd ud st defs m
          rw [hstep] at hws
          exact hws
        | ok okdata =>
          obtain ⟨st', defs'⟩ := okdata
          simp only [hstep]
          have hws := swapStep_writes_dev cpd ud st defs m
          rw [hstep] at hws
          rw [ih st' defs']
          exact hws
      | dir =>
        simp only [swapLoop, hfn]
        cases hstep : swapStep DevelopmentVersion cpd ud st defs m with
        | error edata =>
          obtain ⟨e, st', defs'⟩ := edata
          simp only [hstep]
          have hws := swapStep_writes_dev cpd ud st defs m
          rw [hstep] at hws
          exact hws
        | ok okdata =>
          obtain ⟨st', defs'⟩ := okdata
          simp only [hstep]
          have hws := swapStep_writes_dev cpd ud st defs m
          rw [hstep] at hws
          rw [ih st' defs']
          exact hws

/-- The swap loop only adds deferred-removal targets, never drops
them. -/
theorem swapLoop_defs_mono (tv : String) (cpd ud : PathC) :
    ∀ (order : List (String × Version)) (st : VFS) (defs : List PathC) (d : PathC),
    d ∈ defs → d ∈ (swapLoop tv cpd ud st defs order).2.2 := by
  intro order
  induction order with
  | nil => intro st defs d hd; exact hd
  | cons x rest ih =>
    intro st defs d hd
    obtain ⟨m, mv⟩ := x
    cases hfn : findNode st.nodes (cpd ++ [m]) with
    | none =>
      simp only [swapLoop, hfn]
      cases hstep : swapStep tv cpd ud st defs m with
      | error edata =>
        obtain ⟨e, st', defs'⟩ := edata
        simp only [hstep]
        have hsd := swapStep_defs tv cpd ud st defs m
        rw [hstep] at hsd
        simp only [stepDefs] at hsd
        rcases hsd with h | h
        · rw [h]
          exact List.mem_cons_of_mem _ hd
        · rw [h]
          exact hd
      | ok okdata =>
        obtain ⟨st', defs'⟩ := okdata
        simp only [hstep]
        have hsd := swapStep_defs tv cpd ud st defs m
        rw [hstep] at hsd
        simp only [stepDefs] at hsd
        refine ih st' defs' d ?_
        rcases hsd with h | h
        · rw [h]
          exact List.mem_cons_of_mem _ hd
        · rw [h]
          exact hd
    | some n =>
      cases n with
      | symlink t =>
        simp only [swapLoop, hfn]
        exact ih st defs d hd
      | file c e2 =>
        simp only [swapLoop, hfn]
        cases hstep : swapStep tv cpd ud st defs m with
        | error edata =>
          obtain ⟨e, st', defs'⟩ := edata
          simp only [hstep]
          have hsd := swapStep_defs tv cpd ud st defs m
          rw [hstep] at hsd
          simp only [stepDefs] at hsd
          rcases hsd with h | h
          · rw [h]
            exact List.mem_cons_of_mem _ hd
          · rw [h]
            exact hd
        | ok okdata =>
          obtain ⟨st', defs'⟩ := okdata
          simp only [hstep]
          have hsd := swapStep_defs tv cpd ud st defs m
          rw [hstep] at hsd
          simp only [stepDefs] at hsd
          refine ih st' defs' d ?_
          rcases hsd with h | h
          · rw [h]
            exact List.mem_cons_of_mem _ hd
          · rw [h]
            exact hd
      | dir =>
        simp only [swapLoop, hfn]
        cases hstep : swapStep tv cpd ud st defs m with
        | error edata =>
          obtain ⟨e, st', defs'⟩ := edata
          simp only [hstep]
          have hsd := swapStep_defs tv cpd ud st defs m
          rw [hstep] at hsd
          simp only [stepDefs] at hsd
          rcases hsd with h | h
          · rw [h]
            exact List.mem_cons_of_mem _ hd
          · rw [h]
            exact hd
        | ok okdata =>
          obtain ⟨st', defs'⟩ := okdata
          simp only [hstep]
          have hsd := swapStep_defs tv cpd ud st defs m
          rw [hstep] at hsd
          simp only [stepDefs] at hsd
          refine ih st' defs' d ?_
          rcases hsd with h | h
          · rw [h]
            exact List.mem_cons_of_mem _ hd
          · rw [h]
            exact hd

/-- A module whose live directory is a symlink is left untouched by
the whole swap loop: every key at or below it keeps its value. -/
theorem swapLoop_symlink_frame (tv : String) (cpd : PathC) (un m0 t : String)
    (hun : "vendor-".data <+: un.data)
    (hm0 : m0 = DaggerModule ∨ m0 = UniverseModule) :
    ∀ (order : List (String × Version)) (st : VFS) (defs : List PathC),
    (∀ x ∈ order, x.1 = DaggerModule ∨ x.1 = UniverseModule) →
    findNode st.nodes (cpd ++ [m0]) = some (.symlink t) →
    ∀ q, (cpd ++ [m0]) <+: q →
    findNode (swapLoop tv cpd (cpd ++ [un]) st defs order).2.1.nodes q
      = findNode st.nodes q := by
  intro order
  induction order with
  | nil => intro st defs _ _ q _; rfl
  | cons x rest ih =>
    intro st defs horder hsym q hq
    obtain ⟨m, mv⟩ := x
    cases hfn : findNode st.nodes (cpd ++ [m]) with
    | none =>
      simp only [swapLoop, hfn]
      have hmne : m ≠ m0 := by
        intro he
        simp [he, hsym] at hfn
      have hm := horder (m, mv) (List.mem_cons_self _ _)
      obtain ⟨tail, htail⟩ := hq
      have hqe : q = cpd ++ (m0 :: tail) := by
        rw [← htail, List.append_assoc]
        simp
      have hc1 : ¬ (cpd ++ [m]) <+: q := by
        rw [hqe]
        exact cons_under_not_prefix cpd m m0 [] tail hmne
      have hc2 : ¬ (cpd ++ [m ++ ".old"]) <+: q := by
        rw [hqe]
        exact cons_under_not_prefix cpd (m ++ ".old") m0 [] tail
          (table_old_ne m m0 hm hm0)
      have hc3 : ¬ ((cpd ++ [un]) ++ [m]) <+: q := by
        rw [hqe]
        intro hc
        rw [List.append_assoc] at hc
        exact cons_under_not_prefix cpd un m0 [m] tail
          (vendor_name_ne_table un m0 hun hm0) hc
      have hd1 : ¬ (cpd ++ [m]) <+: (cpd ++ [m0]) :=
        cons_under_not_prefix cpd m m0 [] [] hmne
      have hd2 : ¬ (cpd ++ [m ++ ".old"]) <+: (cpd ++ [m0]) :=
        cons_under_not_prefix cpd (m ++ ".old") m0 [] [] (table_old_ne m m0 hm hm0)
      have hd3 : ¬ ((cpd ++ [un]) ++ [m]) <+: (cpd ++ [m0]) := by
        intro hc
        rw [List.append_assoc] at hc
        exact cons_under_not_prefix cpd un m0 [m] []
          (vendor_name_ne_table un m0 hun hm0) hc
      have horder2 : ∀ x ∈ rest, x.1 = DaggerModule ∨ x.1 = UniverseModule :=
        fun x hx => horder x (List.mem_cons_of_mem _ hx)
      cases hstep : swapStep tv cpd (cpd ++ [un]) st defs m with
      | error edata =>
        obtain ⟨e, st', defs'⟩ := edata
        simp only [hstep]
        have hfrq := swapStep_frame tv cpd (cpd ++ [un]) st defs m q hc1 hc2 hc3
        rw [hstep] at hfrq
        exact hfrq
      | ok okdata =>
        obtain ⟨st', defs'⟩ := okdata
        simp only [hstep]
        have hsym2 : findNode st'.nodes (cpd ++ [m0]) = some (.symlink t) := by
          have hfr0 := swapStep_frame tv cpd (cpd ++ [un]) st defs m (cpd ++ [m0])
            hd1 hd2 hd3
          rw [hstep] at hfr0
          simp only [stepSt] at hfr0
          rw [hfr0]
          exact hsym
        rw [ih st' defs' horder2 hsym2 q ⟨tail, htail⟩]
        have hfrq := swapStep_frame tv cpd (cpd ++ [un]) st defs m q hc1 hc2 hc3
        rw [hstep] at hfrq
        exact hfrq
    | some n =>
      cases n with
      | symlink t =>
        simp only [swapLoop, hfn]
        exact ih st defs (fun x hx => horder x (List.mem_cons_of_mem _ hx)) hsym q hq
      | file c e2 =>
        simp only [swapLoop, hfn]
        have hmne : m ≠ m0 := by
          intro he
          simp [he, hsym] at hfn
        have hm := horder (m, mv) (List.mem_cons_self _ _)
        obtain ⟨tail, htail⟩ := hq
        have hqe : q = cpd ++ (m0 :: tail) := by
          rw [← htail, List.append_assoc]
          simp
        have hc1 : ¬ (cpd ++ [m]) <+: q := by
          rw [hqe]
          exact cons_under_not_prefix cpd m m0 [] tail hmne
        have hc2 : ¬ (cpd ++ [m ++ ".old"]) <+: q := by
          rw [hqe]
          exact cons_under_not_prefix cpd (m ++ ".old") m0 [] tail
            (table_old_ne m m0 hm hm0)
        have hc3 : ¬ ((cpd ++ [un]) ++ [m]) <+: q := by
          rw [hqe]
          intro hc
          rw [List.append_assoc] at hc
          exact cons_under_not_prefix cpd un m0 [m] tail
            (vendor_name_ne_table un m0 hun hm0) hc
        have hd1 : ¬ (cpd ++ [m]) <+: (cpd ++ [m0]) :=
          cons_under_not_prefix cpd m m0 [] [] hmne
        have hd2 : ¬ (cpd ++ [m ++ ".old"]) <+: (cpd ++ [m0]) :=
          cons_under_not_prefix cpd (m ++ ".old") m0 [] [] (table_old_ne m m0 hm hm0)
        have hd3 : ¬ ((cpd ++ [un]) ++ [m]) <+: (cpd ++ [m0]) := by
          intro hc
          rw [List.append_assoc] at hc
          exact cons_under_not_prefix cpd un m0 [m] []
            (vendor_name_ne_table un m0 hun hm0) hc
        have horder2 : ∀ x ∈ rest, x.1 = DaggerModule ∨ x.1 = UniverseModule :=
          fun x hx => horder x (List.mem_cons_of_mem _ hx)
        cases hstep : swapStep tv cpd (cpd ++ [un]) st defs m with
        | error edata =>
          obtain ⟨e, st', defs'⟩ := edata
          simp only [hstep]
          have hfrq := swapStep_frame tv cpd (cpd ++ [un]) st defs m q hc1 hc2 hc3
          rw [hstep] at hfrq
          exact hfrq
        | ok okdata =>
          obtain ⟨st', defs'⟩ := okdata
          simp only [hstep]
          have hsym2 : findNode st'.nodes (cpd ++ [m0]) = some (.symlink t) := by
            have hfr0 := swapStep_frame tv cpd (cpd ++ [un]) st defs m (cpd ++ [m0])
              hd1 hd2 hd3
            rw [hstep] at hfr0
            simp only [stepSt] at hfr0
            rw [hfr0]
            exact hsym
          rw [ih st' defs' horder2 hsym2 q ⟨tail, htail⟩]
          have hfrq := swapStep_frame tv cpd (cpd ++ [un]) st defs m q hc1 hc2 hc3
          rw [hstep] at hfrq
          exact hfrq
      | dir =>
        simp only [swapLoop, hfn]
        have hmne : m ≠ m0 := by
          intro he
          simp [he, hsym] at hfn
        have hm := horder (m, mv) (List.mem_cons_self _ _)
        obtain ⟨tail, htail⟩ := hq
        have hqe : q = cpd ++ (m0 :: tail) := by
          rw [← htail, List.append_assoc]
          simp
        have hc1 : ¬ (cpd ++ [m]) <+: q := by
          rw [hqe]
          exact cons_under_not_prefix cpd m m0 [] tail hmne
        have hc2 : ¬ (cpd ++ [m ++ ".old"]) <+: q := by
          rw [hqe]
          exact cons_under_not_prefix cpd (m ++ ".old") m0 [] tail
            (table_old_ne m m0 hm hm0)
        have hc3 : ¬ ((cpd ++ [un]) ++ [m]) <+: q := by
          rw [hqe]
          intro hc
          rw [List.append_assoc] at hc
          exact cons_under_not_prefix cpd un m0 [m] tail
            (vendor_name_ne_table un m0 hun hm0) hc
        have hd1 : ¬ (cpd ++ [m]) <+: (cpd ++ [m0]) :=
          cons_under_not_prefix cpd m m0 [] [] hmne
        have hd2 : ¬ (cpd ++ [m ++ ".old"]) <+: (cpd ++ [m0]) :=
          cons_under_not_prefix cpd (m ++ ".old") m0 [] [] (table_old_ne m m0 hm hm0)
        have hd3 : ¬ ((cpd ++ [un]) ++ [m]) <+: (cpd ++ [m0]) := by
          intro hc
          rw [List.append_assoc] at hc
          exact cons_under_not_prefix cpd un m0 [m] []
            (vendor_name_ne_table un m0 hun hm0) hc
        have horder2 : ∀ x ∈ rest, x.1 = DaggerModule ∨ x.1 = UniverseModule :=
          fun x hx => horder x (List.mem_cons_of_mem _ hx)
        cases hstep : swapStep tv cpd (cpd ++ [un]) st defs m with
        | error edata =>
          obtain ⟨e, st', defs'⟩ := edata
          simp only [hstep]
          have hfrq := swapStep_frame tv cpd (cpd ++ [un]) st defs m q hc1 hc2 hc3
          rw [hstep] at hfrq
          exact hfrq
        | ok okdata =>
          obtain ⟨st', defs'⟩ := okdata
          simp only [hstep]
          have hsym2 : findNode st'.nodes (cpd ++ [m0]) = some (.symlink t) := by
            have hfr0 := swapStep_frame tv cpd (cpd ++ [un]) st defs m (cpd ++ [m0])
              hd1 hd2 hd3
            rw [hstep] at hfr0
            simp only [stepSt] at hfr0
            rw [hfr0]
            exact hsym
          rw [ih st' defs' horder2 hsym2 q ⟨tail, htail⟩]
          have hfrq := swapStep_frame tv cpd (cpd ++ [un]) st defs m q hc1 hc2 hc3
          rw [hstep] at hfrq
          exact hfrq

/-- The `.gitignore` step never writes. -/
theorem gitignoreStep_writes (st1 : VFS) (cpd : PathC) :
    (gitignoreStep st1 cpd).writes = st1.writes := by
  unfold gitignoreStep
  split
  · split <;> rfl
  · rfl

/-- The `.gitignore` step touches only the `.gitignore` path. -/
theorem gitignoreStep_frame (st1 : VFS) (cpd : PathC) (q : PathC)
    (hq : q ≠ cpd ++ [".gitignore"]) :
    findNode (gitignoreStep st1 cpd).nodes q = findNode st1.nodes q := by
  unfold gitignoreStep
  split
  · split
    · rw [findNode_removeOp, if_neg hq]
    · rfl
  · rfl

/-- The `.gitignore` step never creates a node. -/
theorem gitignoreStep_none (st1 : VFS) (cpd : PathC) (q : PathC)
    (hq : findNode st1.nodes q = none) :
    findNode (gitignoreStep st1 cpd).nodes q = none := by
  unfold gitignoreStep
  split
  · split
    · rw [findNode_removeOp]
      by_cases h : q = cpd ++ [".gitignore"]
      · rw [if_pos h]
      · rw [if_neg h]
        exact hq
    · exact hq
  · exact hq

/-- Every deferred-removal target registered by the swap loop is a
backup directory of a module of the iteration order. -/
theorem swapLoop_defs_shape (tv : String) (cpd ud : PathC) :
    ∀ (order : List (String × Version)) (st : VFS) (defs : List PathC),
    ∀ d ∈ (swapLoop tv cpd ud st defs order).2.2,
      d ∈ defs ∨ ∃ m, (∃ mv, (m, mv) ∈ order) ∧ d = cpd ++ [m ++ ".old"] := by
  intro order
  induction order with
  | nil => intro st defs d hd; exact Or.inl hd
  | cons x rest ih =>
    intro st defs
    obtain ⟨m, mv⟩ := x
    cases hfn : findNode st.nodes (cpd ++ [m]) with
    | none =>
      simp only [swapLoop, hfn]
      cases hstep : swapStep tv cpd ud st defs m with
      | error edata =>
        obtain ⟨e, st', defs'⟩ := edata
        simp only [hstep]
        have hsd := swapStep_defs tv cpd ud st defs m
        rw [hstep] at hsd
        simp only [stepDefs] at hsd
        intro d hd
        rcases hsd with h | h
        · rw [h] at hd
          rcases List.mem_cons.mp hd with h0 | h0
          · exact Or.inr ⟨m, ⟨mv, List.mem_cons_self _ _⟩, h0⟩
          · exact Or.inl h0
        · rw [h] at hd
          exact Or.inl hd
      | ok okdata =>
        obtain ⟨st', defs'⟩ := okdata
        simp only [hstep]
        have hsd := swapStep_defs tv cpd ud st defs m
        rw [hstep] at hsd
        simp only [stepDefs] at hsd
        intro d hd
        rcases ih st' defs' d hd with h | ⟨m2, ⟨mv2, hm2⟩, hde⟩
        · rcases hsd with h1 | h1
          · rw [h1] at h
            rcases List.mem_cons.mp h with h0 | h0
            · exact Or.inr ⟨m, ⟨mv, List.mem_cons_self _ _⟩, h0⟩
            · exact Or.inl h0
          · rw [h1] at h
            exact Or.inl h
        · exact Or.inr ⟨m2, ⟨mv2, List.mem_cons_of_mem _ hm2⟩, hde⟩
    | some n =>
      cases n with
      | symlink t =>
        simp only [swapLoop, hfn]
        intro d hd
        rcases ih st defs d hd with h | ⟨m2, ⟨mv2, hm2⟩, hde⟩
        · exact Or.inl h
        · exact Or.inr ⟨m2, ⟨mv2, List.mem_cons_of_mem _ hm2⟩, hde⟩
      | file c e2 =>
        simp only [swapLoop, hfn]
        cases hstep : swapStep tv cpd ud st defs m with
        | error edata =>
          obtain ⟨e, st', defs'⟩ := edata
          simp only [hstep]
          have hsd := swapStep_defs tv cpd ud st defs m
          rw [hstep] at hsd
          simp only [stepDefs] at hsd
          intro d hd
          rcases hsd with h | h
          · rw [h] at hd
            rcases List.mem_cons.mp hd with h0 | h0
            · exact Or.inr ⟨m, ⟨mv, List.mem_cons_self _ _⟩, h0⟩
            · exact Or.inl h0
          · rw [h] at hd
            exact Or.inl hd
        | ok okdata =>
          obtain ⟨st', defs'⟩ := okdata
          simp only [hstep]
          have hsd := swapStep_defs tv cpd ud st defs m
          rw [hstep] at hsd
          simp only [stepDefs] at hsd
          intro d hd
          rcases ih st' defs' d hd with h | ⟨m2, ⟨mv2, hm2⟩, hde⟩
          · rcases hsd with h1 | h1
            · rw [h1] at h
              rcases List.mem_cons.mp h with h0 | h0
              · exact Or.inr ⟨m, ⟨mv, List.mem_cons_self _ _⟩, h0⟩
              · exact Or.inl h0
            · rw [h1] at h
              exact Or.inl h
          · exact Or.inr ⟨m2, ⟨mv2, List.mem_cons_of_mem _ hm2⟩, hde⟩
      | dir =>
        simp only [swapLoop, hfn]
        cases hstep : swapStep tv cpd ud st defs m with
        | error edata =>
          obtain ⟨e, st', defs'⟩ := edata
          simp only [hstep]
          have hsd := swapStep_defs tv cpd ud st defs m
          rw [hstep] at hsd
          simp only [stepDefs] at hsd
          intro d hd
          rcases hsd with h | h
          · rw [h] at hd
            rcases List.mem_cons.mp hd with h0 | h0
            · exact Or.inr ⟨m, ⟨mv, List.mem_cons_self _ _⟩, h0⟩
            · exact Or.inl h0
          · rw [h] at hd
            exact Or.inl hd
        | ok okdata =>
          obtain ⟨st', defs'⟩ := okdata
          simp only [hstep]
          have hsd := swapStep_defs tv cpd ud st defs m
          rw [hstep] at hsd
          simp only [stepDefs] at hsd
          intro d hd
          rcases ih st' defs' d hd with h | ⟨m2, ⟨mv2, hm2⟩, hde⟩
          · rcases hsd with h1 | h1
            · rw [h1] at h
              rcases List.mem_cons.mp h with h0 | h0
              · exact Or.inr ⟨m, ⟨mv, List.mem_cons_self _ _⟩, h0⟩
              · exact Or.inl h0
            · rw [h1] at h
              exact Or.inl h
          · exact Or.inr ⟨m2, ⟨mv2, List.mem_cons_of_mem _ hm2⟩, hde⟩

/-- In a development build, every write of the vendoring body is the
`module.cue` scaffold descriptor, the `.gitattributes` marker, or an
extraction overlay under the staging directory — never a version
marker. -/
theorem vendorBody_writes_dev (st : VFS) (p : PathC)
    (bundle : List (PathC × BEntry)) (un : String)
    (order : List (String × Version)) :
    ∀ w ∈ (vendorBody st p DevelopmentVersion bundle un order).2.1.writes,
      w ∈ st.writes
      ∨ w = (p ++ ["cue.mod"]) ++ ["module.cue"]
      ∨ w = (p ++ ["cue.mod", "pkg"]) ++ [".gitattributes"]
      ∨ ∃ bp ∈ (includedOf bundle).map Prod.fst,
          w = ((p ++ ["cue.mod", "pkg"]) ++ [un]) ++ bp := by
  unfold vendorBody
  cases hcm : cueModInit st p "" with
  | mk b st1 =>
    have hcw : ∀ w ∈ st1.writes,
        w ∈ st.writes ∨ w = (p ++ ["cue.mod"]) ++ ["module.cue"] := by
      have h := cueModInit_writes st p ""
      rw [hcm] at h
      exact h
    cases b with
    | false =>
      simp only [hcm]
      intro w hw
      rcases hcw w hw with h | h
      · exact Or.inl h
      · exact Or.inr (Or.inl h)
    | true =>
      simp only [hcm]
      cases hwa : writeFileOp (gitignoreStep st1 (p ++ ["cue.mod", "pkg"]))
          ((p ++ ["cue.mod", "pkg"]) ++ [".gitattributes"])
          "# generated by dagger\n** linguist-generated=true\n" false with
      | none =>
        simp only [hwa]
        intro w hw
        have hw' : w ∈ (gitignoreStep st1 (p ++ ["cue.mod", "pkg"])).writes := hw
        rw [gitignoreStep_writes] at hw'
        rcases hcw w hw' with h | h
        · exact Or.inl h
        · exact Or.inr (Or.inl h)
      | some st3 =>
        simp only [hwa]
        have hw3 : st3.writes
            = ((p ++ ["cue.mod", "pkg"]) ++ [".gitattributes"])
                :: (gitignoreStep st1 (p ++ ["cue.mod", "pkg"])).writes :=
          (writeFileOp_writes _ _ _ _ _ hwa).1
        cases hex : extractLoop ((p ++ ["cue.mod", "pkg"]) ++ [un])
            (VFS.mk (setNode st3.nodes ((p ++ ["cue.mod", "pkg"]) ++ [un]) Node.dir) st3.writes st3.lockHeld) bundle with
        | mk ok st5 =>
          have hexw : ∀ w ∈ st5.writes,
              w ∈ st3.writes
              ∨ ∃ bp ∈ (includedOf bundle).map Prod.fst,
                  w = ((p ++ ["cue.mod", "pkg"]) ++ [un]) ++ bp := by
            have h := extractLoop_writes ((p ++ ["cue.mod", "pkg"]) ++ [un]) bundle
              (VFS.mk (setNode st3.nodes ((p ++ ["cue.mod", "pkg"]) ++ [un]) Node.dir) st3.writes st3.lockHeld)
            rw [hex] at h
            exact h
          have hst5 : ∀ w ∈ st5.writes,
              w ∈ st.writes
              ∨ w = (p ++ ["cue.mod"]) ++ ["module.cue"]
              ∨ w = (p ++ ["cue.mod", "pkg"]) ++ [".gitattributes"]
              ∨ ∃ bp ∈ (includedOf bundle).map Prod.fst,
                  w = ((p ++ ["cue.mod", "pkg"]) ++ [un]) ++ bp := by
            intro w hw
            rcases hexw w hw with h | ⟨bp, hbp, hwe⟩
            · rw [hw3] at h
              rcases List.mem_cons.mp h with h0 | h0
              · exact Or.inr (Or.inr (Or.inl h0))
              · rw [gitignoreStep_writes] at h0
                rcases hcw w h0 with h1 | h1
                · exact Or.inl h1
                · exact Or.inr (Or.inl h1)
            · exact Or.inr (Or.inr (Or.inr ⟨bp, hbp, hwe⟩))
          cases ok with
          | false =>
            simp only [hex]
            exact hst5
          | true =>
            simp only [hex]
            intro w hw
            have hw' : w ∈ (swapLoop DevelopmentVersion (p ++ ["cue.mod", "pkg"])
                ((p ++ ["cue.mod", "pkg"]) ++ [un]) st5
                [(p ++ ["cue.mod", "pkg"]) ++ [un]] order).2.1.writes := hw
            rw [swapLoop_writes_dev] at hw'
            exact hst5 w hw'

/-- On every exit path of the vendoring body, either the staging
directory has been registered for deferred removal, or nothing was
ever created at or below it. -/
theorem vendorBody_staging (st : VFS) (p : PathC) (tv : String)
    (bundle : List (PathC × BEntry)) (un : String)
    (order : List (String × Version)) (q : PathC)
    (hq : ((p ++ ["cue.mod", "pkg"]) ++ [un]) <+: q)
    (h0 : findNode st.nodes q = none)
    (hun : "vendor-".data <+: un.data) :
    ((p ++ ["cue.mod", "pkg"]) ++ [un]) ∈ (vendorBody st p tv bundle un order).2.2 ∨
    findNode (vendorBody st p tv bundle un order).2.1.nodes q = none := by
  obtain ⟨tail, htail⟩ := hq
  have hqe : q = p ++ ("cue.mod" :: "pkg" :: un :: tail) := by
    rw [← htail]
    simp
  have hd1 : q ≠ p ++ ["cue.mod"] := by
    rw [hqe]
    intro hc
    have := List.append_cancel_left hc
    simp at this
  have hd2 : q ≠ (p ++ ["cue.mod"]) ++ ["module.cue"] := by
    intro hc
    rw [hqe] at hc
    simp at hc
  have hd3 : q ≠ (p ++ ["cue.mod"]) ++ ["pkg"] := by
    intro hc
    rw [hqe] at hc
    simp at hc
  unfold vendorBody
  cases hcm : cueModInit st p "" with
  | mk b st1 =>
    have h1 : findNode st1.nodes q = none := by
      have hfr : findNode st1.nodes q = findNode st.nodes q := by
        have h := cueModInit_frame st p "" q hd1 hd2 hd3
        rw [hcm] at h
        exact h
      rw [hfr]
      exact h0
    cases b with
    | false =>
      simp only [hcm]
      exact Or.inr h1
    | true =>
      simp only [hcm]
      have h2 : findNode (gitignoreStep st1 (p ++ ["cue.mod", "pkg"])).nodes q = none :=
        gitignoreStep_none st1 _ q h1
      cases hwa : writeFileOp (gitignoreStep st1 (p ++ ["cue.mod", "pkg"]))
          ((p ++ ["cue.mod", "pkg"]) ++ [".gitattributes"])
          "# generated by dagger\n** linguist-generated=true\n" false with
      | none =>
        simp only [hwa]
        exact Or.inr h2
      | some st3 =>
        simp only [hwa]
        cases hex : extractLoop ((p ++ ["cue.mod", "pkg"]) ++ [un])
            (VFS.mk (setNode st3.nodes ((p ++ ["cue.mod", "pkg"]) ++ [un]) Node.dir) st3.writes st3.lockHeld) bundle with
        | mk ok st5 =>
          cases ok with
          | false =>
            simp only [hex]
            exact Or.inl (List.mem_cons_self _ _)
          | true =>
            simp only [hex]
            refine Or.inl ?_
            exact swapLoop_defs_mono tv (p ++ ["cue.mod", "pkg"])
              ((p ++ ["cue.mod", "pkg"]) ++ [un]) order st5
              [(p ++ ["cue.mod", "pkg"]) ++ [un]] _ (List.mem_cons_self _ _)

/-- The vendoring body never touches the subtree of a module whose
live directory is a symlink, and every deferred-removal target it
registers lies outside that subtree. -/
theorem vendorBody_symlink_frame (st : VFS) (p : PathC) (tv : String)
    (bundle : List (PathC × BEntry)) (un m0 t : String)
    (order : List (String × Version))
    (hun : "vendor-".data <+: un.data)
    (hm0 : m0 = DaggerModule ∨ m0 = UniverseModule)
    (horder : ∀ x ∈ order, x.1 = DaggerModule ∨ x.1 = UniverseModule)
    (hbne : ∀ x ∈ includedOf bundle, x.1 ≠ [])
    (hsym : findNode st.nodes ((p ++ ["cue.mod", "pkg"]) ++ [m0]) = some (.symlink t)) :
    (∀ q, ((p ++ ["cue.mod", "pkg"]) ++ [m0]) <+: q →
      findNode (vendorBody st p tv bundle un order).2.1.nodes q = findNode st.nodes q) ∧
    (∀ d ∈ (vendorBody st p tv bundle un order).2.2,
      ∀ q, ((p ++ ["cue.mod", "pkg"]) ++ [m0]) <+: q → ¬ d <+: q) := by
  have hm0git : m0 ≠ ".gitignore" := by
    rcases hm0 with h | h <;> subst h <;> decide
  have hm0attr : m0 ≠ ".gitattributes" := by
    rcases hm0 with h | h <;> subst h <;> decide
  have hunm0 : un ≠ m0 := vendor_name_ne_table un m0 hun hm0
  have hkeys : ∀ q, ((p ++ ["cue.mod", "pkg"]) ++ [m0]) <+: q →
      q ≠ p ++ ["cue.mod"] ∧
      q ≠ (p ++ ["cue.mod"]) ++ ["module.cue"] ∧
      q ≠ (p ++ ["cue.mod"]) ++ ["pkg"] ∧
      q ≠ (p ++ ["cue.mod", "pkg"]) ++ [".gitignore"] ∧
      q ≠ (p ++ ["cue.mod", "pkg"]) ++ [".gitattributes"] ∧
      q ≠ (p ++ ["cue.mod", "pkg"]) ++ [un] ∧
      ¬ ((p ++ ["cue.mod", "pkg"]) ++ [un]) <+: q := by
    intro q hq
    obtain ⟨tail, htail⟩ := hq
    have hqe : q = (p ++ ["cue.mod", "pkg"]) ++ (m0 :: tail) := by
      rw [← htail, List.append_assoc]
      simp
    have hqe2 : q = p ++ ("cue.mod" :: "pkg" :: m0 :: tail) := by
      rw [hqe]
      simp
    refine ⟨?_, ?_, ?_, ?_, ?_, ?_, ?_⟩
    · rw [hqe2]
      intro hc
      have := List.append_cancel_left hc
      simp at this
    · intro hc
      rw [hqe2] at hc
      simp at hc
    · intro hc
      rw [hqe2] at hc
      simp at hc
    · rw [hqe]
      exact cons_under_ne _ m0 ".gitignore" tail [] hm0git
    · rw [hqe]
      exact cons_under_ne _ m0 ".gitattributes" tail [] hm0attr
    · rw [hqe]
      exact cons_under_ne _ m0 un tail [] (fun h => hunm0 h.symm)
    · rw [hqe]
      exact cons_under_not_prefix _ un m0 [] tail hunm0
  unfold vendorBody
  cases hcm : cueModInit st p "" with
  | mk b st1 =>
    have hfr1 : ∀ q, ((p ++ ["cue.mod", "pkg"]) ++ [m0]) <+: q →
        findNode st1.nodes q = findNode st.nodes q := by
      intro q hq
      obtain ⟨k1, k2, k3, _, _, _, _⟩ := hkeys q hq
      have h := cueModInit_frame st p "" q k1 k2 k3
      rw [hcm] at h
      exact h
    cases b with
    | false =>
      simp only [hcm]
      refine ⟨hfr1, ?_⟩
      intro d hd
      cases hd
    | true =>
      simp only [hcm]
      have hfr2 : ∀ q, ((p ++ ["cue.mod", "pkg"]) ++ [m0]) <+: q →
          findNode (gitignoreStep st1 (p ++ ["cue.mod", "pkg"])).nodes q
            = findNode st.nodes q := by
        intro q hq
        rw [gitignoreStep_frame st1 _ q (hkeys q hq).2.2.2.1]
        exact hfr1 q hq
      cases hwa : writeFileOp (gitignoreStep st1 (p ++ ["cue.mod", "pkg"]))
          ((p ++ ["cue.mod", "pkg"]) ++ [".gitattributes"])
          "# generated by dagger\n** linguist-generated=true\n" false with
      | none =>
        simp only [hwa]
        refine ⟨hfr2, ?_⟩
        intro d hd
        cases hd
      | some st3 =>
        simp only [hwa]
        have hfr4 : ∀ q, ((p ++ ["cue.mod", "pkg"]) ++ [m0]) <+: q →
            findNode (VFS.mk (setNode st3.nodes ((p ++ ["cue.mod", "pkg"]) ++ [un])
                Node.dir) st3.writes st3.lockHeld).nodes q
              = findNode st.nodes q := by
          intro q hq
          show findNode (setNode st3.nodes ((p ++ ["cue.mod", "pkg"]) ++ [un]) Node.dir) q
            = findNode st.nodes q
          rw [findNode_setNode, if_neg (hkeys q hq).2.2.2.2.2.1,
            writeFileOp_frame _ st3 _ q _ _ hwa (hkeys q hq).2.2.2.2.1]
          exact hfr2 q hq
        cases hex : extractLoop ((p ++ ["cue.mod", "pkg"]) ++ [un])
            (VFS.mk (setNode st3.nodes ((p ++ ["cue.mod", "pkg"]) ++ [un]) Node.dir) st3.writes st3.lockHeld) bundle with
        | mk ok st5 =>
          have hfr5 : ∀ q, ((p ++ ["cue.mod", "pkg"]) ++ [m0]) <+: q →
              findNode st5.nodes q = findNode st.nodes q := by
            intro q hq
            have h := extractLoop_frame ((p ++ ["cue.mod", "pkg"]) ++ [un]) bundle
              (VFS.mk (setNode st3.nodes ((p ++ ["cue.mod", "pkg"]) ++ [un]) Node.dir) st3.writes st3.lockHeld)
              q hbne (hkeys q hq).2.2.2.2.2.2
            rw [hex] at h
            have h5 : findNode st5.nodes q
                = findNode (VFS.mk (setNode st3.nodes ((p ++ ["cue.mod", "pkg"]) ++ [un]) Node.dir) st3.writes st3.lockHeld).nodes q := h
            rw [h5]
            exact hfr4 q hq
          cases ok with
          | false =>
            simp only [hex]
            refine ⟨hfr5, ?_⟩
            intro d hd q hq
            have hde : d = (p ++ ["cue.mod", "pkg"]) ++ [un] := List.mem_singleton.mp hd
            subst hde
            exact (hkeys q hq).2.2.2.2.2.2
          | true =>
            simp only [hex]
            have hsym5 : findNode st5.nodes ((p ++ ["cue.mod", "pkg"]) ++ [m0])
                = some (.symlink t) := by
              rw [hfr5 _ (List.prefix_refl _)]
              exact hsym
            constructor
            · intro q hq
              have h := swapLoop_symlink_frame tv (p ++ ["cue.mod", "pkg"]) un m0 t
                hun hm0 order st5 [(p ++ ["cue.mod", "pkg"]) ++ [un]] horder hsym5 q hq
              exact h.trans (hfr5 q hq)
            · intro d hd q hq
              have hd2 : d ∈ (swapLoop tv (p ++ ["cue.mod", "pkg"])
                  ((p ++ ["cue.mod", "pkg"]) ++ [un]) st5
                  [(p ++ ["cue.mod", "pkg"]) ++ [un]] order).2.2 := hd
              rcases swapLoop_defs_shape tv (p ++ ["cue.mod", "pkg"])
                  ((p ++ ["cue.mod", "pkg"]) ++ [un]) order st5
                  [(p ++ ["cue.mod", "pkg"]) ++ [un]] d hd2 with h | ⟨m2, ⟨mv2, hm2⟩, hde⟩
              · have hde : d = (p ++ ["cue.mod", "pkg"]) ++ [un] := List.mem_singleton.mp h
                subst hde
                exact (hkeys q hq).2.2.2.2.2.2
              · have hm2n := horder (m2, mv2) hm2
                obtain ⟨tail, htail⟩ := hq
                have hqe : q = (p ++ ["cue.mod", "pkg"]) ++ (m0 :: tail) := by
                  rw [← htail, List.append_assoc]
                  simp
                rw [hde, hqe]
                exact cons_under_not_prefix _ (m2 ++ ".old") m0 [] tail
                  (table_old_ne m2 m0 hm2n hm0)

/-- C6: a required module whose live directory is a symlink at the
start of a run is never removed, renamed, or replaced by the whole
`Vendor` transaction — every key at or below the module directory,
including the symlink node itself and hence its target, is identical
before and after — and the compatibility checker skips such a module,
returning success for it regardless of any version marker. -/
theorem C6_symlink_preserved (st0 : VFS) (p : PathC) (tv : String)
    (bundle : List (PathC × BEntry)) (un m0 t : String)
    (order : List (String × Version)) (dv minv : Version)
    (hun : "vendor-".data <+: un.data)
    (hm0 : m0 = DaggerModule ∨ m0 = UniverseModule)
    (horder : ∀ x ∈ order, x.1 = DaggerModule ∨ x.1 = UniverseModule)
    (hbne : ∀ x ∈ includedOf bundle, x.1 ≠ [])
    (hsym : findNode st0.nodes ((p ++ ["cue.mod", "pkg"]) ++ [m0]) = some (.symlink t)) :
    (∀ q, ((p ++ ["cue.mod", "pkg"]) ++ [m0]) <+: q →
      findNode (Vendor st0 p tv bundle un order).2.nodes q = findNode st0.nodes q) ∧
    checkModule st0 (p ++ ["cue.mod", "pkg"]) dv m0 minv = none := by
  have hm0lk : m0 ≠ "dagger.lock" := by
    rcases hm0 with h | h <;> subst h <;> decide
  constructor
  · intro q hq
    obtain ⟨tail, htail⟩ := hq
    have hqe : q = (p ++ ["cue.mod", "pkg"]) ++ (m0 :: tail) := by
      rw [← htail, List.append_assoc]
      simp
    have hqcpd : q ≠ p ++ ["cue.mod", "pkg"] := by
      rw [hqe]
      exact append_ne_left _ _ (List.cons_ne_nil _ _)
    have hqlf : q ≠ (p ++ ["cue.mod", "pkg"]) ++ ["dagger.lock"] := by
      rw [hqe]
      exact cons_under_ne _ m0 "dagger.lock" tail [] hm0lk
    have hm0cpd : (p ++ ["cue.mod", "pkg"]) ++ [m0] ≠ p ++ ["cue.mod", "pkg"] :=
      append_ne_left _ _ (List.cons_ne_nil _ _)
    have hm0lf : (p ++ ["cue.mod", "pkg"]) ++ [m0]
        ≠ (p ++ ["cue.mod", "pkg"]) ++ ["dagger.lock"] :=
      cons_under_ne _ m0 "dagger.lock" [] [] hm0lk
    unfold Vendor
    cases hmk : mkdirAllOp st0 (p ++ ["cue.mod", "pkg"]) with
    | none =>
      simp only [hmk]
    | some st1 =>
      simp only [hmk]
      cases hvb : vendorBody (VFS.mk (setNode st1.nodes
          ((p ++ ["cue.mod", "pkg"]) ++ ["dagger.lock"]) (Node.file "" false))
          st1.writes true) p tv bundle un order with
      | mk res rest =>
        obtain ⟨st3, defs⟩ := rest
        simp only [hvb]
        rw [findNode_removeOp, if_neg hqlf]
        show findNode (defs.foldl removeAllOp st3).nodes q = findNode st0.nodes q
        have hsym2 : findNode (VFS.mk (setNode st1.nodes
            ((p ++ ["cue.mod", "pkg"]) ++ ["dagger.lock"]) (Node.file "" false))
            st1.writes true).nodes ((p ++ ["cue.mod", "pkg"]) ++ [m0])
            = some (.symlink t) := by
          show findNode (setNode st1.nodes
            ((p ++ ["cue.mod", "pkg"]) ++ ["dagger.lock"]) (Node.file "" false))
            ((p ++ ["cue.mod", "pkg"]) ++ [m0]) = some (.symlink t)
          rw [findNode_setNode, if_neg hm0lf,
            mkdirAllOp_frame st0 st1 _ _ hmk hm0cpd]
          exact hsym
        have hbody := vendorBody_symlink_frame (VFS.mk (setNode st1.nodes
            ((p ++ ["cue.mod", "pkg"]) ++ ["dagger.lock"]) (Node.file "" false))
            st1.writes true) p tv bundle un m0 t order hun hm0 horder hbne hsym2
        rw [hvb] at hbody
        obtain ⟨hfr, hdefs⟩ := hbody
        have h1 : findNode (defs.foldl removeAllOp st3).nodes q
            = findNode st3.nodes q :=
          foldl_removeAll_frame defs st3 q (fun d hd => hdefs d hd q ⟨tail, htail⟩)
        have h2 : findNode st3.nodes q
            = findNode (VFS.mk (setNode st1.nodes
                ((p ++ ["cue.mod", "pkg"]) ++ ["dagger.lock"]) (Node.file "" false))
                st1.writes true).nodes q := hfr q ⟨tail, htail⟩
        have h3 : findNode (VFS.mk (setNode st1.nodes
            ((p ++ ["cue.mod", "pkg"]) ++ ["dagger.lock"]) (Node.file "" false))
            st1.writes true).nodes q = findNode st0.nodes q := by
          show findNode (setNode st1.nodes
            ((p ++ ["cue.mod", "pkg"]) ++ ["dagger.lock"]) (Node.file "" false)) q
            = findNode st0.nodes q
          rw [findNode_setNode, if_neg hqlf,
            mkdirAllOp_frame st0 st1 _ q hmk hqcpd]
        rw [h1, h2, h3]
  · simp only [checkModule, hsym]

/-- Witness for `C6_symlink_preserved`: a project whose `dagger.io`
directory is a symlink to `/custom`, vendored with the real
requirement table. -/
theorem C6_symlink_preserved_witness :
    ("vendor-".data <+: "vendor-1".data) ∧
    ((∀ q, ((["r"] ++ ["cue.mod", "pkg"]) ++ ["dagger.io"]) <+: q →
      findNode (Vendor stSym ["r"] "0.2.11" bundleSmall "vendor-1"
        ModuleRequirements).2.nodes q = findNode stSym.nodes q) ∧
      checkModule stSym (["r"] ++ ["cue.mod", "pkg"]) [0, 2, 11] "dagger.io"
        [0, 2, 11] = none) :=
  ⟨by decide,
   C6_symlink_preserved stSym ["r"] "0.2.11" bundleSmall "vendor-1" "dagger.io"
     "/custom" ModuleRequirements [0, 2, 11] [0, 2, 11] (by decide) (Or.inl rfl)
     (by decide) (by decide) rfl⟩

/-- C9: on every exit path of `Vendor` the deferred cleanups leave the
lock released, the lock file removed, and nothing at or below the
staging directory — neither artifact survives the transaction,
whatever the outcome. -/
theorem C9_cleanup (st0 : VFS) (p : PathC) (tv : String)
    (bundle : List (PathC × BEntry)) (un : String)
    (order : List (String × Version))
    (hun : "vendor-".data <+: un.data)
    (hlock0 : st0.lockHeld = false)
    (hlf0 : findNode st0.nodes ((p ++ ["cue.mod", "pkg"]) ++ ["dagger.lock"]) = none)
    (hst0 : ∀ q, ((p ++ ["cue.mod", "pkg"]) ++ [un]) <+: q →
      findNode st0.nodes q = none) :
    (Vendor st0 p tv bundle un order).2.lockHeld = false ∧
    findNode (Vendor st0 p tv bundle un order).2.nodes
      ((p ++ ["cue.mod", "pkg"]) ++ ["dagger.lock"]) = none ∧
    ∀ q, ((p ++ ["cue.mod", "pkg"]) ++ [un]) <+: q →
      findNode (Vendor st0 p tv bundle un order).2.nodes q = none := by
  unfold Vendor
  cases hmk : mkdirAllOp st0 (p ++ ["cue.mod", "pkg"]) with
  | none =>
    simp only [hmk]
    exact ⟨hlock0, hlf0, hst0⟩
  | some st1 =>
    simp only [hmk]
    cases hvb : vendorBody (VFS.mk (setNode st1.nodes
        ((p ++ ["cue.mod", "pkg"]) ++ ["dagger.lock"]) (Node.file "" false))
        st1.writes true) p tv bundle un order with
    | mk res rest =>
      obtain ⟨st3, defs⟩ := rest
      simp only [hvb]
      refine ⟨rfl, ?_, ?_⟩
      · rw [findNode_removeOp, if_pos rfl]
      · intro q hq
        rw [findNode_removeOp]
        by_cases hql : q = (p ++ ["cue.mod", "pkg"]) ++ ["dagger.lock"]
        · rw [if_pos hql]
        · rw [if_neg hql]
          show findNode (defs.foldl removeAllOp st3).nodes q = none
          have hqcpd : q ≠ p ++ ["cue.mod", "pkg"] := by
            obtain ⟨tail, htail⟩ := hq
            have hqe : q = (p ++ ["cue.mod", "pkg"]) ++ (un :: tail) := by
              rw [← htail, List.append_assoc]
              simp
            rw [hqe]
            exact append_ne_left _ _ (List.cons_ne_nil _ _)
          have hq2 : findNode (VFS.mk (setNode st1.nodes
              ((p ++ ["cue.mod", "pkg"]) ++ ["dagger.lock"]) (Node.file "" false))
              st1.writes true).nodes q = none := by
            show findNode (setNode st1.nodes
              ((p ++ ["cue.mod", "pkg"]) ++ ["dagger.lock"]) (Node.file "" false)) q
              = none
            rw [findNode_setNode, if_neg hql,
              mkdirAllOp_frame st0 st1 _ q hmk hqcpd]
            exact hst0 q hq
          have hstg := vendorBody_staging (VFS.mk (setNode st1.nodes
              ((p ++ ["cue.mod", "pkg"]) ++ ["dagger.lock"]) (Node.file "" false))
              st1.writes true) p tv bundle un order q hq hq2 hun
          rw [hvb] at hstg
          rcases hstg with hmem | hnone
          · exact foldl_removeAll_mem defs st3 q _ hmem hq
          · exact foldl_removeAll_none defs st3 q hnone

/-- Witness for `C9_cleanup` on an empty filesystem and an empty
bundle. -/
theorem C9_cleanup_witness :
    ("vendor-".data <+: "vendor-1".data) ∧ stEmptyFS.lockHeld = false ∧
    ((Vendor stEmptyFS ["r"] "x" [] "vendor-1" []).2.lockHeld = false ∧
     findNode (Vendor stEmptyFS ["r"] "x" [] "vendor-1" []).2.nodes
       ((["r"] ++ ["cue.mod", "pkg"]) ++ ["dagger.lock"]) = none ∧
     ∀ q, ((["r"] ++ ["cue.mod", "pkg"]) ++ ["vendor-1"]) <+: q →
       findNode (Vendor stEmptyFS ["r"] "x" [] "vendor-1" []).2.nodes q = none) :=
  ⟨by decide, rfl,
   C9_cleanup stEmptyFS ["r"] "x" [] "vendor-1" [] (by decide) rfl rfl
     (fun _ _ => rfl)⟩

/-- C5: when the tool reports the development pseudo-version,
`EnsureCompatibility` succeeds for every filesystem state and
iteration order, and `Vendor` never writes the persisted version
marker `cue.mod/version.txt` of any staged module (provided the
bundle itself ships no file at that relative path, as the real
embedded bundle does not). -/
theorem C5_dev_bypass :
    (∀ (st : VFS) (p : PathC) (order : List (String × Version)),
      ensureCompatibility st p DevelopmentVersion order = none) ∧
    (∀ (st0 : VFS) (p : PathC) (bundle : List (PathC × BEntry))
        (un m : String) (order : List (String × Version)),
      st0.writes = [] →
      ([m] ++ versionFilePathC) ∉ (includedOf bundle).map Prod.fst →
      (((p ++ ["cue.mod", "pkg"]) ++ [un]) ++ ([m] ++ versionFilePathC))
        ∉ (Vendor st0 p DevelopmentVersion bundle un order).2.writes) := by
  constructor
  · intro st p order
    simp [ensureCompatibility]
  · intro st0 p bundle un m order hw0 hnb hmem
    unfold Vendor at hmem
    cases hmk : mkdirAllOp st0 (p ++ ["cue.mod", "pkg"]) with
    | none =>
      simp only [hmk] at hmem
      have hmem0 : (((p ++ ["cue.mod", "pkg"]) ++ [un]) ++ ([m] ++ versionFilePathC))
          ∈ st0.writes := hmem
      rw [hw0] at hmem0
      cases hmem0
    | some st1 =>
      simp only [hmk] at hmem
      cases hvb : vendorBody (VFS.mk (setNode st1.nodes
          ((p ++ ["cue.mod", "pkg"]) ++ ["dagger.lock"]) (Node.file "" false))
          st1.writes true) p DevelopmentVersion bundle un order with
      | mk res rest =>
        obtain ⟨st3, defs⟩ := rest
        simp only [hvb] at hmem
        have hm4 : (((p ++ ["cue.mod", "pkg"]) ++ [un]) ++ ([m] ++ versionFilePathC))
            ∈ (defs.foldl removeAllOp st3).writes := hmem
        rw [foldl_removeAll_writes] at hm4
        have hmemvb : (((p ++ ["cue.mod", "pkg"]) ++ [un]) ++ ([m] ++ versionFilePathC))
            ∈ (vendorBody (VFS.mk (setNode st1.nodes
                ((p ++ ["cue.mod", "pkg"]) ++ ["dagger.lock"]) (Node.file "" false))
                st1.writes true) p DevelopmentVersion bundle un order).2.1.writes := by
          rw [hvb]
          exact hm4
        have hchar := vendorBody_writes_dev (VFS.mk (setNode st1.nodes
            ((p ++ ["cue.mod", "pkg"]) ++ ["dagger.lock"]) (Node.file "" false))
            st1.writes true) p bundle un order _ hmemvb
        rcases hchar with h | h | h | ⟨bp, hbp, he⟩
        · have h1 : (((p ++ ["cue.mod", "pkg"]) ++ [un]) ++ ([m] ++ versionFilePathC))
              ∈ st1.writes := h
          rw [(mkdirAllOp_writes st0 st1 _ hmk).1, hw0] at h1
          cases h1
        · have hl := congrArg List.length h
          simp only [versionFilePathC, List.length_append, List.length_cons,
            List.length_nil] at hl
          omega
        · have hl := congrArg List.length h
          simp only [versionFilePathC, List.length_append, List.length_cons,
            List.length_nil] at hl
          omega
        · have hbpe : [m] ++ versionFilePathC = bp := List.append_cancel_left he
          rw [← hbpe] at hbp
          exact hnb hbp

/-- Witness for `C5_dev_bypass`: the bypass on a fixture with
unparseable-or-old markers, and the absence of the `dagger.io` marker
path from the write trace of a development-mode run over the small
bundle. -/
theorem C5_dev_bypass_witness :
    ensureCompatibility fsOld ["r"] DevelopmentVersion ModuleRequirements = none ∧
    stEmptyFS.writes = [] ∧
    (["dagger.io"] ++ versionFilePathC) ∉ (includedOf bundleSmall).map Prod.fst ∧
    (((["r"] ++ ["cue.mod", "pkg"]) ++ ["vendor-1"]) ++ (["dagger.io"] ++ versionFilePathC))
      ∉ (Vendor stEmptyFS ["r"] DevelopmentVersion bundleSmall "vendor-1"
          ModuleRequirements).2.writes :=
  ⟨C5_dev_bypass.1 fsOld ["r"] ModuleRequirements, rfl, by decide,
   C5_dev_bypass.2 stEmptyFS ["r"] bundleSmall "vendor-1" "dagger.io"
     ModuleRequirements rfl (by decide)⟩
